import Mathlib

/-!
# controlstack.h: control sequence and data stack carried in one message string

A shallow embedding of the preprocessor definitions of `controlstack.h`.
LSL strings are lists of characters, LSL integers are `Int`.  Every definition
of the header that reads or writes the shared variables `n`, `data`, `rest`,
`seq`, `next` becomes a function on `State`; a definition that assigns its
argument variable `x` returns the assigned value next to the new state.  The
scratch variable `index` is written before it is read in every definition, so
it is kept local.

The LSL library functions used by the header (`llSubStringIndex`,
`llGetSubString`, `llStringLength`, `llParseStringKeepNulls`, the `(integer)`
and `(string)` typecasts) are not part of the header; they are embedded after
the LSL language reference.
-/

namespace ControlStack

/-! ## LSL library functions -/

/-- Search `pattern` in the text from position `i` on: the position of the first
occurrence, `-1` when there is none. -/
def subStringIndexFrom (pattern : List Char) : List Char → Int → Int
  | [], i => if pattern = [] then i else -1
  | c :: cs, i =>
    if pattern.isPrefixOf (c :: cs) then i else subStringIndexFrom pattern cs (i + 1)

/-- LSL `llSubStringIndex(source, pattern)`: the 0-based index of the first
occurrence of `pattern` in `source`, or `-1` when `pattern` does not occur. -/
def llSubStringIndex (source pattern : List Char) : Int :=
  subStringIndexFrom pattern source 0

/-- LSL `llStringLength(s)`. -/
def llStringLength (s : List Char) : Int := s.length

/-- Keep the characters whose position (counted from `i`) satisfies `keep`. -/
def subStringAux (keep : Int → Bool) : List Char → Int → List Char
  | [], _ => []
  | c :: cs, i =>
    if keep i then c :: subStringAux keep cs (i + 1) else subStringAux keep cs (i + 1)

/-- LSL `llGetSubString(src, start, end)`.  A negative index counts from the end
of the string (`-1` is the last character).  With `start <= end` the result is
the characters at positions `start .. end`; with `start > end` the range is the
exclusion range `[0, end] + [start, -1]`.  Positions outside the string are
treated as absent, so an out-of-range index clips the range. -/
def llGetSubString (src : List Char) (start stop : Int) : List Char :=
  let len : Int := src.length
  let s := if start < 0 then start + len else start
  let e := if stop < 0 then stop + len else stop
  if s ≤ e then subStringAux (fun i => decide (s ≤ i ∧ i ≤ e)) src 0
  else subStringAux (fun i => decide (i ≤ e ∨ s ≤ i)) src 0

/-- Decimal digit character of `d < 10`. -/
def digitChar (d : Nat) : Char := Char.ofNat (48 + d)

/-- Decimal digits of `n`, most significant first; `fuel > n` is always enough. -/
def natDigits : Nat → Nat → List Char
  | 0, _ => []
  | fuel + 1, n =>
    if n < 10 then [digitChar n] else natDigits fuel (n / 10) ++ [digitChar (n % 10)]

/-- LSL typecast `(string) x` of an integer: its decimal text, with a leading
`-` for a negative value. -/
def castString (x : Int) : List Char :=
  if x < 0 then '-' :: natDigits (x.natAbs + 1) x.natAbs
  else natDigits (x.natAbs + 1) x.natAbs

/-- Value of a run of decimal digits. -/
def decimalValue (ds : List Char) : Nat :=
  ds.foldl (fun a c => a * 10 + (c.toNat - 48)) 0

/-- Is `c` a hexadecimal digit. -/
def isHexDigit (c : Char) : Bool :=
  c.isDigit || (decide ('a' ≤ c) && decide (c ≤ 'f')) || (decide ('A' ≤ c) && decide (c ≤ 'F'))

/-- Value of one hexadecimal digit. -/
def hexDigitValue (c : Char) : Nat :=
  if c.isDigit then c.toNat - 48
  else if decide ('a' ≤ c) && decide (c ≤ 'f') then c.toNat - 87
  else c.toNat - 55

/-- Value of a run of hexadecimal digits. -/
def hexValue (ds : List Char) : Nat :=
  ds.foldl (fun a c => a * 16 + hexDigitValue c) 0

/-- A parsed value as an LSL integer: values outside the 32-bit signed range
give `-1`. -/
def clampInteger (v : Int) : Int :=
  if -2147483648 ≤ v ∧ v < 2147483648 then v else -1

/-- LSL typecast `(integer) s` of a string, the lenient cast: leading white space
is skipped, then either `0x` and hexadecimal digits, or an optional `-` and
decimal digits, are read up to the first character that does not fit; text with
no number gives `0`.  A leading `+` is not read as a sign.  A hexadecimal value
is read as a 32-bit pattern; any other value outside the 32-bit range gives
`-1`. -/
def castInteger (s : List Char) : Int :=
  let t := s.dropWhile Char.isWhitespace
  if (t.take 2 = ['0', 'x'] ∨ t.take 2 = ['0', 'X']) ∧ ((t.drop 2).takeWhile isHexDigit ≠ []) then
    let v := hexValue ((t.drop 2).takeWhile isHexDigit)
    if v < 2147483648 then (v : Int)
    else if v < 4294967296 then (v : Int) - 4294967296
    else -1
  else
    if t.head? = some '-' then clampInteger (-(decimalValue (t.tail.takeWhile Char.isDigit) : Int))
    else clampInteger (decimalValue (t.takeWhile Char.isDigit) : Int)

/-- The first of the delimiters `ds` that the text `s` starts with; an empty
delimiter has no effect. -/
def firstDelimiter (ds : List (List Char)) (s : List Char) : Option (List Char) :=
  ds.find? (fun d => !d.isEmpty && d.isPrefixOf s)

/-- The scan of `llParseStringKeepNulls`: `skip` counts the characters of a
delimiter still to be passed over, `cur` holds the current piece in reverse. -/
def parseKeepNullsAux (separators spacers : List (List Char)) :
    List Char → Nat → List Char → List (List Char)
  | [], _, cur => [cur.reverse]
  | _ :: cs, skip + 1, cur => parseKeepNullsAux separators spacers cs skip cur
  | c :: cs, 0, cur =>
    match firstDelimiter separators (c :: cs) with
    | some d => cur.reverse :: parseKeepNullsAux separators spacers cs (d.length - 1) []
    | none =>
      match firstDelimiter spacers (c :: cs) with
      | some d => cur.reverse :: d :: parseKeepNullsAux separators spacers cs (d.length - 1) []
      | none => parseKeepNullsAux separators spacers cs 0 (c :: cur)

/-- LSL `llParseStringKeepNulls(src, separators, spacers)`: `src` broken into the
list of its pieces between delimiters, scanned from the left; separators are
discarded, spacers are kept as pieces, and empty pieces are kept.  The text
after the last delimiter is always a piece, so the empty text gives the list
holding one empty string. -/
def llParseStringKeepNulls (src : List Char) (separators spacers : List (List Char)) :
    List (List Char) :=
  parseKeepNullsAux separators spacers src 0 []

/-! ## The working state -/

/-- The variables declared by `GLOBAL_DATA`. -/
structure State where
  /-- temporary next state -/
  n : List Char
  /-- data portion of the message -/
  data : List Char
  /-- control sequence after the next is removed -/
  rest : List Char
  /-- control sequence (next not removed) -/
  seq : List Char
  /-- the next state -/
  next : Int
  deriving DecidableEq, Repr

/-- `GLOBAL_DATA`: the strings start empty (`n` by the LSL default), `next` has
the LSL default `0`. -/
def GLOBAL_DATA : State :=
  { n := [], data := [], rest := [], seq := [], next := 0 }

/-- A call of `llMessageLinked(link, num, str, id)`. -/
structure LinkMessage where
  link : Int
  num : Int
  str : List Char
  id : List Char
  deriving DecidableEq, Repr

/-! ## Decoding and dispatch -/

/-- `GET_CONTROL_GLOBAL`: decode the message `msg` into the shared variables. -/
def GET_CONTROL_GLOBAL (st : State) (msg : List Char) : State :=
  let index := llSubStringIndex msg ['|']
  let st1 : State :=
    if index ≠ -1 then
      let st0 : State :=
        if index ≠ 0 then
          { st with seq := llGetSubString msg 0 (index - 1), n := llGetSubString msg 0 (index - 1) }
        else { st with n := ['0'] }
      if index + 1 < llStringLength msg then
        { st0 with data := llGetSubString msg (index + 1) (-1) }
      else st0
    else { st with n := msg, data := [] }
  let index := llSubStringIndex st1.n ['+']
  let st2 : State :=
    if index ≠ -1 then
      { st1 with rest := llGetSubString st1.n (index + 1) (-1),
                 n := llGetSubString st1.n 0 (index - 1) }
    else { st1 with rest := [] }
  if st2.n ≠ [] then { st2 with next := castInteger st2.n } else { st2 with next := 0 }

/-- `GET_CONTROL`: `GLOBAL_DATA; GET_CONTROL_GLOBAL`, the decode into fresh
local variables. -/
def GET_CONTROL (msg : List Char) : State := GET_CONTROL_GLOBAL GLOBAL_DATA msg

/-- `LISTEN_CONTROL`: `GLOBAL_DATA;` and the decode of a message heard on a
channel; the second component is the value assigned to `chan`. -/
def LISTEN_CONTROL (msg : List Char) : State × Int :=
  let st := GLOBAL_DATA
  let index := llSubStringIndex msg ['|']
  let st1 : State :=
    if index ≠ -1 then
      let st0 : State :=
        if index ≠ 0 then
          { st with seq := llGetSubString msg 0 (index - 1), n := llGetSubString msg 0 (index - 1) }
        else { st with n := ['0'] }
      if index + 1 < llStringLength msg then
        { st0 with data := llGetSubString msg (index + 1) (-1) }
      else st0
    else { st with n := msg, data := [] }
  let index := llSubStringIndex st1.n ['+']
  let st2 : State :=
    if index ≠ -1 then
      { st1 with rest := llGetSubString st1.n (index + 1) (-1),
                 n := llGetSubString st1.n 0 (index - 1) }
    else { st1 with rest := [] }
  if st2.n ≠ [] then
    let chan := castInteger st2.n
    let index := llSubStringIndex st2.rest ['+']
    if index ≠ -1 then
      ({ st2 with rest := llGetSubString st2.n (index + 1) (-1),
                  next := castInteger (llGetSubString st2.n 0 (index - 1)) }, chan)
    else ({ st2 with next := castInteger st2.rest, rest := [] }, chan)
  else ({ st2 with next := 0 }, 0)

/-- `NEXT_STATE`: the calls of `llMessageLinked` it makes, for the link target
`LinkType` and the key `xyzzy` of the handler. -/
def NEXT_STATE (LinkType : Int) (xyzzy : List Char) (st : State) : List LinkMessage :=
  if st.next ≠ 0 then
    [{ link := LinkType, num := st.next, str := st.rest ++ ['|'] ++ st.data, id := xyzzy }]
  else []

/-! ## Data stack -/

/-- `POP(x)`: the value assigned to `x`, and the new state. -/
def POP (st : State) : List Char × State :=
  let index := llSubStringIndex st.data ['|']
  if index > 0 then
    let x := llGetSubString st.data 0 (index - 1)
    if index + 1 < llStringLength st.data then
      (x, { st with data := llGetSubString st.data (index + 1) (-1) })
    else (x, { st with data := [] })
  else if index = 0 then ([], { st with data := llGetSubString st.data 1 (-1) })
  else (st.data, { st with data := [] })

/-- `POP_DEFAULT(x, y)`: the value assigned to `x`, and the new state. -/
def POP_DEFAULT (st : State) (y : List Char) : List Char × State :=
  let index := llSubStringIndex st.data ['|']
  if index > 0 then
    let x := llGetSubString st.data 0 (index - 1)
    if index + 1 < llStringLength st.data then
      (x, { st with data := llGetSubString st.data (index + 1) (-1) })
    else (x, { st with data := [] })
  else if index = 0 then (y, { st with data := llGetSubString st.data 1 (-1) })
  else if st.data ≠ [] then (st.data, { st with data := [] })
  else (y, st)

/-- `PUSH(x)` for a string `x`. -/
def PUSH (st : State) (x : List Char) : State :=
  if st.data = [] then { st with data := x } else { st with data := x ++ ['|'] ++ st.data }

/-- `PEEK(x)`: the value assigned to `x`; no shared variable is written. -/
def PEEK (st : State) : List Char :=
  let index := llSubStringIndex st.data ['|']
  if index ≠ -1 then llGetSubString st.data 0 (index - 1) else st.data

/-- `POPlist(x, y)` for a separator string `y`: the list assigned to `x`, and
the new state. -/
def POPlist (st : State) (y : List Char) : List (List Char) × State :=
  let index := llSubStringIndex st.data ['|']
  let st1 : State :=
    if index + 1 ≥ llStringLength st.data then { st with data := llGetSubString st.data 0 (-2) }
    else st
  if index > 0 ∧ index + 1 < llStringLength st1.data then
    (llParseStringKeepNulls (llGetSubString st1.data 0 (index - 1)) [y] [],
      { st1 with data := llGetSubString st1.data (index + 1) (-1) })
  else if index = 0 then ([], { st1 with data := llGetSubString st1.data 1 (-1) })
  else (llParseStringKeepNulls st1.data [['+']] [], { st1 with data := [] })

/-! ## Control sequence -/

/-- `PUSH_CNTRL(x)` for an integer `x`. -/
def PUSH_CNTRL (st : State) (x : Int) : State :=
  let st1 : State := if st.seq ≠ [] then { st with rest := ['+'] ++ st.seq } else st
  { st1 with seq := castString x ++ st1.rest, rest := castString x ++ st1.rest }

/-- `APPEND_CNTRL(x)` for an integer `x`. -/
def APPEND_CNTRL (st : State) (x : Int) : State :=
  let st1 : State := if st.rest ≠ [] then { st with rest := st.rest ++ ['+'] } else st
  let st2 : State := if st1.seq ≠ [] then { st1 with seq := st1.seq ++ ['+'] } else st1
  let st3 : State := { st2 with seq := st2.seq ++ castString x }
  { st3 with rest := st3.rest ++ castString x }

/-- `POP_CNTRL()`. -/
def POP_CNTRL (st : State) : State :=
  let st1 : State := { st with seq := st.rest }
  if st1.rest ≠ [] then
    let ind := llSubStringIndex st1.rest ['+']
    if ind ≠ -1 then
      { st1 with next := castInteger (llGetSubString st1.rest 0 (ind - 1)),
                 rest := llGetSubString st1.rest (ind + 1) (-1) }
    else { st1 with next := castInteger st1.rest, rest := [] }
  else { st1 with next := 0 }

/-- `SAFE_PUSH_CNTRL(x)` for an integer `x`. -/
def SAFE_PUSH_CNTRL (st : State) (x : Int) : State :=
  { st with seq := castString x ++ ['+'] ++ st.rest, rest := castString x ++ ['+'] ++ st.rest }

/-- `UPDATE_NEXT(n)` for an integer argument `v`. -/
def UPDATE_NEXT (st : State) (v : Int) : State :=
  { st with rest := st.seq, next := v }

/-! ## The two halves of the decode, and repeated calls -/

/-- The first half of `GET_CONTROL_GLOBAL`: the split of `msg` at its first `|`. -/
def barSplit (st : State) (msg : List Char) : State :=
  let index := llSubStringIndex msg ['|']
  if index ≠ -1 then
    let st0 : State :=
      if index ≠ 0 then
        { st with seq := llGetSubString msg 0 (index - 1), n := llGetSubString msg 0 (index - 1) }
      else { st with n := ['0'] }
    if index + 1 < llStringLength msg then
      { st0 with data := llGetSubString msg (index + 1) (-1) }
    else st0
  else { st with n := msg, data := [] }

/-- The second half of `GET_CONTROL_GLOBAL`: the split of `n` at its first `+`
and the cast of the head. -/
def plusSplit (st1 : State) : State :=
  let index := llSubStringIndex st1.n ['+']
  let st2 : State :=
    if index ≠ -1 then
      { st1 with rest := llGetSubString st1.n (index + 1) (-1),
                 n := llGetSubString st1.n 0 (index - 1) }
    else { st1 with rest := [] }
  if st2.n ≠ [] then { st2 with next := castInteger st2.n } else { st2 with next := 0 }

/-- The split of `n` at its first `+`, as in `GET_CONTROL_GLOBAL` and
`LISTEN_CONTROL`, before any cast. -/
def plusHead (st1 : State) : State :=
  let index := llSubStringIndex st1.n ['+']
  if index ≠ -1 then
    { st1 with rest := llGetSubString st1.n (index + 1) (-1),
               n := llGetSubString st1.n 0 (index - 1) }
  else { st1 with rest := [] }

/-- The last part of `LISTEN_CONTROL`: the assignment of `chan`, `next` and
`rest`. -/
def listenTail (st2 : State) : State × Int :=
  if st2.n ≠ [] then
    let chan := castInteger st2.n
    let index := llSubStringIndex st2.rest ['+']
    if index ≠ -1 then
      ({ st2 with rest := llGetSubString st2.n (index + 1) (-1),
                  next := castInteger (llGetSubString st2.n 0 (index - 1)) }, chan)
    else ({ st2 with next := castInteger st2.rest, rest := [] }, chan)
  else ({ st2 with next := 0 }, 0)

/-- `POP` called `k` times: the values assigned, in order, and the final state. -/
def popTimes : Nat → State → List (List Char) × State
  | 0, st => ([], st)
  | k + 1, st => ((POP st).1 :: (popTimes k (POP st).2).1, (popTimes k (POP st).2).2)

/-- `POP_CNTRL` called `k` times. -/
def popCntrlTimes : Nat → State → State
  | 0, st => st
  | k + 1, st => popCntrlTimes k (POP_CNTRL st)

/-! ## Words of the specification -/

/-- The text before the first `sep` (all of the text when it has none). -/
def textBefore (sep : Char) (s : List Char) : List Char :=
  s.takeWhile (fun c => decide (c ≠ sep))

/-- The text after the first `sep` (empty when it has none). -/
def textAfter (sep : Char) (s : List Char) : List Char :=
  (s.dropWhile (fun c => decide (c ≠ sep))).drop 1

/-- The control text of a message in the words of the specification: the text
before the first `|` (all of the message when it has no `|`), and the literal
`0` when that text is empty. -/
def controlText (msg : List Char) : List Char :=
  if textBefore '|' msg = [] then ['0'] else textBefore '|' msg

/-- The elements joined by `sep`. -/
def joinWith (sep : Char) : List (List Char) → List Char
  | [] => []
  | [e] => e
  | e :: f :: es => e ++ sep :: joinWith sep (f :: es)

/-- The control text `next` joined by `+` to `rest`: the decimal text of `next`,
followed by `+` and `rest` when `rest` is not empty. -/
def joinedControl (next : Int) (rest : List Char) : List Char :=
  if rest = [] then castString next else castString next ++ '+' :: rest

/-- The invariant of the working state in the words of the specification:
whenever `next != 0`, `seq` equals `next` joined by `+` to `rest`. -/
def invariant (st : State) : Prop :=
  st.next ≠ 0 → st.seq = joinedControl st.next st.rest

instance (st : State) : Decidable (invariant st) := by
  unfold invariant
  exact inferInstance

/-! ## Facts about the library functions -/

theorem subStringIndexFrom_not_mem (p : Char) (s : List Char) (i : Int) (h : p ∉ s) :
    subStringIndexFrom [p] s i = -1 := by
  induction s generalizing i with
  | nil => simp [subStringIndexFrom]
  | cons c cs ih =>
    simp only [List.mem_cons, not_or] at h
    have hc : ¬ (p = c) := h.1
    simp [subStringIndexFrom, List.isPrefixOf, hc, ih (i + 1) h.2]

theorem subStringIndexFrom_split (p : Char) (a b : List Char) (i : Int) (h : p ∉ a) :
    subStringIndexFrom [p] (a ++ p :: b) i = i + a.length := by
  induction a generalizing i with
  | nil => simp [subStringIndexFrom, List.isPrefixOf]
  | cons c cs ih =>
    simp only [List.mem_cons, not_or] at h
    have hc : ¬ (p = c) := h.1
    simp [subStringIndexFrom, List.isPrefixOf, hc, ih (i + 1) h.2]
    omega

theorem llSubStringIndex_not_mem (p : Char) (s : List Char) (h : p ∉ s) :
    llSubStringIndex s [p] = -1 :=
  subStringIndexFrom_not_mem p s 0 h

theorem llSubStringIndex_split (p : Char) (a b : List Char) (h : p ∉ a) :
    llSubStringIndex (a ++ p :: b) [p] = a.length := by
  simp [llSubStringIndex, subStringIndexFrom_split p a b 0 h]

theorem subStringAux_append (keep : Int → Bool) (a b : List Char) (i : Int) :
    subStringAux keep (a ++ b) i = subStringAux keep a i ++ subStringAux keep b (i + a.length) := by
  induction a generalizing i with
  | nil => simp [subStringAux]
  | cons c cs ih =>
    have e : i + 1 + (cs.length : Int) = i + ((cs.length : Int) + 1) := by omega
    by_cases hk : keep i = true <;> simp [subStringAux, hk, ih (i + 1), e]

theorem subStringAux_all (keep : Int → Bool) (l : List Char) (i : Int)
    (h : ∀ j : Int, i ≤ j → j < i + l.length → keep j = true) : subStringAux keep l i = l := by
  induction l generalizing i with
  | nil => simp [subStringAux]
  | cons c cs ih =>
    have h0 : keep i = true := h i (le_refl i) (by simp only [List.length_cons, Nat.cast_add, Nat.cast_one]; omega)
    have ht : subStringAux keep cs (i + 1) = cs :=
      ih (i + 1) (fun j h1 h2 => h j (by omega)
        (by simp only [List.length_cons, Nat.cast_add, Nat.cast_one]; omega))
    simp [subStringAux, h0, ht]

theorem subStringAux_none (keep : Int → Bool) (l : List Char) (i : Int)
    (h : ∀ j : Int, i ≤ j → j < i + l.length → keep j = false) : subStringAux keep l i = [] := by
  induction l generalizing i with
  | nil => simp [subStringAux]
  | cons c cs ih =>
    have h0 : keep i = false := h i (le_refl i) (by simp only [List.length_cons, Nat.cast_add, Nat.cast_one]; omega)
    have ht : subStringAux keep cs (i + 1) = [] :=
      ih (i + 1) (fun j h1 h2 => h j (by omega)
        (by simp only [List.length_cons, Nat.cast_add, Nat.cast_one]; omega))
    simp [subStringAux, h0, ht]

/-- The characters before position `a.length`, when there are any. -/
theorem llGetSubString_head (a b : List Char) (ha : a ≠ []) :
    llGetSubString (a ++ b) 0 ((a.length : Int) - 1) = a := by
  have hl : 0 < a.length := List.length_pos.mpr ha
  have h1 : ¬ ((a.length : Int) - 1 < 0) := by omega
  have h2 : (0 : Int) ≤ (a.length : Int) - 1 := by omega
  simp only [llGetSubString, lt_self_iff_false, if_false, h1, h2, if_true]
  rw [subStringAux_append, subStringAux_all, subStringAux_none]
  · simp
  · intro j hj1 hj2
    simp only [decide_eq_false_iff_not]
    omega
  · intro j hj1 hj2
    simp only [decide_eq_true_eq]
    omega

/-- The characters from position `a.length` on, when there are any. -/
theorem llGetSubString_tail (a b : List Char) (hb : b ≠ []) :
    llGetSubString (a ++ b) (a.length : Int) (-1) = b := by
  have hl : 0 < b.length := List.length_pos.mpr hb
  have h1 : ¬ ((a.length : Int) < 0) := by omega
  have h2 : (a.length : Int) ≤ -1 + ((a ++ b).length : Int) := by simp; omega
  simp only [llGetSubString, h1, if_false, h2, if_true, show ((-1 : Int) < 0) from by omega]
  rw [subStringAux_append, subStringAux_none, subStringAux_all]
  · simp
  · intro j hj1 hj2
    simp only [decide_eq_true_eq, List.length_append, Nat.cast_add]
    omega
  · intro j hj1 hj2
    simp only [decide_eq_false_iff_not, List.length_append, Nat.cast_add]
    omega

/-- An end index of `-1` with a start index at or below `0`... the whole text. -/
theorem llGetSubString_whole (s : List Char) : llGetSubString s 0 (-1) = s := by
  simp only [llGetSubString, lt_self_iff_false, if_false, show ((-1 : Int) < 0) from by omega,
    if_true]
  split
  · apply subStringAux_all
    intro j hj1 hj2
    simp only [decide_eq_true_eq]
    omega
  · apply subStringAux_all
    intro j hj1 hj2
    simp only [decide_eq_true_eq]
    omega

/-- A start index just past the last character with end index `-1` is an
exclusion range that keeps the whole text. -/
theorem llGetSubString_past (s : List Char) : llGetSubString s (s.length : Int) (-1) = s := by
  have h1 : ¬ ((s.length : Int) < 0) := by omega
  have h2 : ¬ ((s.length : Int) ≤ -1 + (s.length : Int)) := by omega
  simp only [llGetSubString, h1, if_false, h2, show ((-1 : Int) < 0) from by omega, if_true]
  apply subStringAux_all
  intro j hj1 hj2
  simp only [decide_eq_true_eq]
  omega

/-- With a second character the text after the first character is kept. -/
theorem llGetSubString_drop_one (c : Char) (b : List Char) (hb : b ≠ []) :
    llGetSubString (c :: b) 1 (-1) = b := by
  have h := llGetSubString_tail [c] b hb
  simpa using h

/-- On a text of one character the range `1 .. -1` keeps that character. -/
theorem llGetSubString_one_char (c : Char) : llGetSubString [c] 1 (-1) = [c] := by
  have h := llGetSubString_past [c]
  simpa using h

/-! ## Facts about the words of the specification -/

theorem textBefore_cons_self (p : Char) (cs : List Char) : textBefore p (p :: cs) = [] := by
  simp [textBefore]

theorem textBefore_cons_ne (p c : Char) (cs : List Char) (h : c ≠ p) :
    textBefore p (c :: cs) = c :: textBefore p cs := by
  simp [textBefore, h]

theorem textAfter_cons_self (p : Char) (cs : List Char) : textAfter p (p :: cs) = cs := by
  simp [textAfter]

theorem textAfter_cons_ne (p c : Char) (cs : List Char) (h : c ≠ p) :
    textAfter p (c :: cs) = textAfter p cs := by
  simp [textAfter, h]

theorem textBefore_not_mem (p : Char) (s : List Char) : p ∉ textBefore p s := by
  induction s with
  | nil => simp [textBefore]
  | cons c cs ih =>
    by_cases hc : c = p
    · rw [hc, textBefore_cons_self]
      simp
    · rw [textBefore_cons_ne p c cs hc]
      simp only [List.mem_cons, not_or]
      exact ⟨fun e => hc e.symm, ih⟩

theorem textBefore_of_not_mem (p : Char) (s : List Char) (h : p ∉ s) : textBefore p s = s := by
  induction s with
  | nil => simp [textBefore]
  | cons c cs ih =>
    simp only [List.mem_cons, not_or] at h
    rw [textBefore_cons_ne p c cs (fun e => h.1 e.symm), ih h.2]

theorem textAfter_of_not_mem (p : Char) (s : List Char) (h : p ∉ s) : textAfter p s = [] := by
  induction s with
  | nil => simp [textAfter]
  | cons c cs ih =>
    simp only [List.mem_cons, not_or] at h
    rw [textAfter_cons_ne p c cs (fun e => h.1 e.symm), ih h.2]

theorem text_split (p : Char) (s : List Char) (h : p ∈ s) :
    s = textBefore p s ++ p :: textAfter p s := by
  induction s with
  | nil => simp at h
  | cons c cs ih =>
    by_cases hc : c = p
    · rw [hc, textBefore_cons_self, textAfter_cons_self]
      rfl
    · have hm : p ∈ cs := by
        rcases List.mem_cons.mp h with e | e
        · exact absurd e.symm hc
        · exact e
      rw [textBefore_cons_ne p c cs hc, textAfter_cons_ne p c cs hc, List.cons_append, ← ih hm]

theorem textBefore_append (p : Char) (a b : List Char) (h : p ∉ a) :
    textBefore p (a ++ p :: b) = a := by
  induction a with
  | nil => exact textBefore_cons_self p b
  | cons c cs ih =>
    simp only [List.mem_cons, not_or] at h
    rw [List.cons_append, textBefore_cons_ne p c _ (fun e => h.1 e.symm), ih h.2]

theorem textAfter_append (p : Char) (a b : List Char) (h : p ∉ a) :
    textAfter p (a ++ p :: b) = b := by
  induction a with
  | nil => exact textAfter_cons_self p b
  | cons c cs ih =>
    simp only [List.mem_cons, not_or] at h
    rw [List.cons_append, textAfter_cons_ne p c _ (fun e => h.1 e.symm), ih h.2]

/-! ## Facts about the typecasts -/

theorem digitChar_isDigit : ∀ d, d < 10 → (digitChar d).isDigit = true := by decide

theorem digitChar_value : ∀ d, d < 10 → (digitChar d).toNat - 48 = d := by decide

theorem natDigits_ne_nil (fuel n : Nat) (h : n < fuel) : natDigits fuel n ≠ [] := by
  cases fuel with
  | zero => omega
  | succ f =>
    unfold natDigits
    split <;> simp

theorem natDigits_isDigit (fuel n : Nat) : ∀ c ∈ natDigits fuel n, c.isDigit = true := by
  induction fuel generalizing n with
  | zero => simp [natDigits]
  | succ f ih =>
    intro c hc
    unfold natDigits at hc
    split at hc
    · rename_i hlt
      simp only [List.mem_singleton] at hc
      rw [hc]
      exact digitChar_isDigit n hlt
    · rcases List.mem_append.mp hc with h1 | h1
      · exact ih (n / 10) c h1
      · simp only [List.mem_singleton] at h1
        rw [h1]
        exact digitChar_isDigit (n % 10) (Nat.mod_lt n (by decide))

theorem decimalValue_natDigits (fuel n : Nat) (h : n < fuel) :
    decimalValue (natDigits fuel n) = n := by
  induction fuel generalizing n with
  | zero => omega
  | succ f ih =>
    unfold natDigits
    split
    · rename_i hlt
      simp [decimalValue, digitChar_value n hlt]
    · rename_i hge
      have h1 : n / 10 < f := by omega
      have h2 := ih (n / 10) h1
      simp only [decimalValue] at h2
      simp only [decimalValue, List.foldl_append, List.foldl_cons, List.foldl_nil, h2,
        digitChar_value (n % 10) (Nat.mod_lt n (by decide))]
      omega

theorem isDigit_not_whitespace (c : Char) (h : c.isDigit = true) : c.isWhitespace = false := by
  cases hw : c.isWhitespace with
  | false => rfl
  | true =>
    simp only [Char.isWhitespace, Bool.or_eq_true, decide_eq_true_eq] at hw
    rcases hw with ((rfl | rfl) | rfl) | rfl <;> exact absurd h (by decide)

theorem takeWhile_isDigit_self (ds : List Char) (hd : ∀ c ∈ ds, c.isDigit = true) :
    ds.takeWhile Char.isDigit = ds := by
  induction ds with
  | nil => rfl
  | cons c cs ih =>
    rw [List.takeWhile_cons_of_pos (hd c (List.mem_cons_self c cs)),
      ih (fun d hm => hd d (List.mem_cons_of_mem c hm))]

/-- The cast of a non-empty run of decimal digits. -/
theorem castInteger_digits (ds : List Char) (hne : ds ≠ [])
    (hd : ∀ c ∈ ds, c.isDigit = true) : castInteger ds = clampInteger (decimalValue ds) := by
  obtain ⟨c, cs, rfl⟩ := List.exists_cons_of_ne_nil hne
  have hc : c.isDigit = true := hd c (List.mem_cons_self c cs)
  have hw : (c :: cs).dropWhile Char.isWhitespace = c :: cs :=
    List.dropWhile_cons_of_neg (by simp [isDigit_not_whitespace c hc])
  have hx : ¬ (((c :: cs).take 2 = ['0', 'x'] ∨ (c :: cs).take 2 = ['0', 'X']) ∧
      (((c :: cs).drop 2).takeWhile isHexDigit ≠ [])) := by
    rintro ⟨h | h, -⟩
    · have hm : 'x' ∈ (c :: cs).take 2 := by rw [h]; simp
      exact absurd (hd _ (List.mem_of_mem_take hm)) (by decide)
    · have hm : 'X' ∈ (c :: cs).take 2 := by rw [h]; simp
      exact absurd (hd _ (List.mem_of_mem_take hm)) (by decide)
  have hm : ¬ ((c :: cs).head? = some '-') := by
    intro h
    simp only [List.head?_cons, Option.some.injEq] at h
    rw [h] at hc
    exact absurd hc (by decide)
  unfold castInteger
  simp only [hw]
  rw [if_neg hx, if_neg hm, takeWhile_isDigit_self _ hd]

/-- The cast of `-` followed by a run of decimal digits. -/
theorem castInteger_neg_digits (ds : List Char) (hd : ∀ c ∈ ds, c.isDigit = true) :
    castInteger ('-' :: ds) = clampInteger (-(decimalValue ds : Int)) := by
  have hw : ('-' :: ds).dropWhile Char.isWhitespace = '-' :: ds :=
    List.dropWhile_cons_of_neg (by decide)
  have hx : ¬ ((('-' :: ds).take 2 = ['0', 'x'] ∨ ('-' :: ds).take 2 = ['0', 'X']) ∧
      ((('-' :: ds).drop 2).takeWhile isHexDigit ≠ [])) := by
    rintro ⟨h | h, -⟩
    · cases ds <;> simp at h
    · cases ds <;> simp at h
  unfold castInteger
  simp only [hw]
  rw [if_neg hx, if_pos (by simp), List.tail_cons, takeWhile_isDigit_self _ hd]

/-- The integer cast reads back the decimal text of every 32-bit integer. -/
theorem castInteger_castString (x : Int) (h1 : -2147483648 ≤ x) (h2 : x < 2147483648) :
    castInteger (castString x) = x := by
  unfold castString
  split
  · rw [castInteger_neg_digits _ (natDigits_isDigit _ _),
      decimalValue_natDigits _ _ (Nat.lt_succ_self _)]
    unfold clampInteger
    rw [if_pos (by omega)]
    omega
  · rw [castInteger_digits _ (natDigits_ne_nil _ _ (Nat.lt_succ_self _)) (natDigits_isDigit _ _),
      decimalValue_natDigits _ _ (Nat.lt_succ_self _)]
    unfold clampInteger
    rw [if_pos (by omega)]
    omega

theorem castString_ne_nil (x : Int) : castString x ≠ [] := by
  unfold castString
  split
  · simp
  · exact natDigits_ne_nil _ _ (Nat.lt_succ_self _)

theorem plus_not_mem_castString (x : Int) : '+' ∉ castString x := by
  unfold castString
  split
  · intro h
    rcases List.mem_cons.mp h with e | e
    · exact absurd e (by decide)
    · exact absurd (natDigits_isDigit _ _ _ e) (by decide)
  · intro e
    exact absurd (natDigits_isDigit _ _ _ e) (by decide)

/-- The text after the separator at position `a.length`, when there is some. -/
theorem llGetSubString_after (p : Char) (a b : List Char) (hb : b ≠ []) :
    llGetSubString (a ++ p :: b) ((a.length : Int) + 1) (-1) = b := by
  have h := llGetSubString_tail (a ++ [p]) b hb
  simpa using h

/-! ## Facts about `POP` -/

theorem POP_no_bar (st : State) (h : '|' ∉ st.data) :
    POP st = (st.data, { st with data := [] }) := by
  unfold POP
  simp only [llSubStringIndex_not_mem _ _ h]
  rw [if_neg (by decide), if_neg (by decide)]

theorem POP_bar (st : State) (a b : List Char) (hd : st.data = a ++ '|' :: b)
    (ha : '|' ∉ a) (hne : a ≠ []) : POP st = (a, { st with data := b }) := by
  have hl : 0 < a.length := List.length_pos.mpr hne
  unfold POP
  simp only [hd, llSubStringIndex_split _ a b ha, llGetSubString_head a _ hne, llStringLength]
  rw [if_pos (by omega)]
  by_cases hb : b = []
  · rw [if_neg (by simp [hb])]
    simp [hb]
  · have hbl : 0 < b.length := List.length_pos.mpr hb
    rw [if_pos (by simp; omega), llGetSubString_after _ a b hb]

theorem POP_bar_first (st : State) (b : List Char) (hd : st.data = '|' :: b) (hb : b ≠ []) :
    POP st = ([], { st with data := b }) := by
  unfold POP
  have hi : llSubStringIndex ('|' :: b) ['|'] = 0 := by
    have := llSubStringIndex_split '|' [] b (by simp)
    simpa using this
  simp only [hd, hi, llGetSubString_drop_one _ b hb]
  rw [if_neg (by decide), if_pos trivial]

theorem POP_bar_only (st : State) (hd : st.data = ['|']) :
    POP st = ([], { st with data := ['|'] }) := by
  unfold POP
  have hi : llSubStringIndex ['|'] ['|'] = 0 := by
    have := llSubStringIndex_split '|' [] [] (by simp)
    simpa using this
  simp only [hd, hi, llGetSubString_one_char]
  rw [if_neg (by decide), if_pos trivial]

theorem joinWith_eq_nil (sep : Char) (f : List Char) (es : List (List Char))
    (h : joinWith sep (f :: es) = []) : f = [] ∧ es = [] := by
  cases es with
  | nil => exact ⟨by simpa [joinWith] using h, rfl⟩
  | cons g gs => simp [joinWith] at h

theorem popTimes_succ (k : Nat) (st : State) :
    popTimes (k + 1) st =
      ((POP st).1 :: (popTimes k (POP st).2).1, (popTimes k (POP st).2).2) := rfl

theorem popTimes_zero (st : State) : popTimes 0 st = ([], st) := rfl

/-- `POP` called once per element on the joined text of `L` returns the elements
of `L` in order; `data` ends empty unless `L` ends in two empty strings, in
which case it ends as `|`. -/
theorem popTimes_joinWith (L : List (List Char)) (st : State) (hL : ∀ e ∈ L, '|' ∉ e)
    (hd : st.data = joinWith '|' L) :
    (popTimes L.length st).1 = L ∧
    (popTimes L.length st).2.data = (if [[], []] <:+ L then ['|'] else []) := by
  induction L generalizing st with
  | nil => simpa [popTimes, joinWith] using hd
  | cons e t ih =>
    cases t with
    | nil =>
      have hd2 : st.data = e := by simpa [joinWith] using hd
      have hb : '|' ∉ st.data := by rw [hd2]; exact hL e (List.mem_singleton.mpr rfl)
      have hs : ¬ ([[], []] <:+ [e]) := fun h => by simpa using h.length_le
      rw [List.length_singleton, popTimes_succ, popTimes_zero, POP_no_bar st hb, hd2, if_neg hs]
      exact ⟨rfl, rfl⟩
    | cons f es =>
      have hd2 : st.data = e ++ '|' :: joinWith '|' (f :: es) := by simpa [joinWith] using hd
      have he : '|' ∉ e := hL e (List.mem_cons_self e _)
      have hL2 : ∀ x ∈ f :: es, '|' ∉ x := fun x hx => hL x (List.mem_cons_of_mem e hx)
      by_cases hJ : joinWith '|' (f :: es) = []
      · obtain ⟨hf, hes⟩ := joinWith_eq_nil '|' f es hJ
        subst hf hes
        by_cases hee : e = []
        · subst hee
          have hd3 : st.data = ['|'] := by simpa [joinWith] using hd
          simp [popTimes, POP_bar_only st hd3, POP_bar_only { st with data := ['|'] } rfl]
        · have hs : ¬ ([[], []] <:+ [e, []]) := by
            rw [List.suffix_cons_iff]
            rintro (h | h)
            · simp only [List.cons.injEq, and_true] at h
              exact hee h.symm
            · simpa using h.length_le
          have hp := POP_bar st e [] (by simpa [joinWith] using hd2) he hee
          have hp2 := POP_no_bar { st with data := [] } (by simp)
          rw [show [e, ([] : List Char)].length = 1 + 1 from rfl, popTimes_succ, popTimes_succ,
            popTimes_zero, hp, hp2, if_neg hs]
          exact ⟨rfl, rfl⟩
      · have hp : POP st = (e, { st with data := joinWith '|' (f :: es) }) := by
          by_cases hee : e = []
          · subst hee
            exact POP_bar_first st _ (by simpa using hd2) hJ
          · exact POP_bar st e _ hd2 he hee
        obtain ⟨i1, i2⟩ := ih { st with data := joinWith '|' (f :: es) } hL2 rfl
        have hs : ([[], []] <:+ e :: f :: es) ↔ ([[], []] <:+ f :: es) := by
          rw [List.suffix_cons_iff]
          constructor
          · rintro (h | h)
            · simp only [List.cons.injEq] at h
              obtain ⟨-, h2, h3⟩ := h
              rw [← h2, ← h3] at hJ
              exact absurd rfl hJ
            · exact h
          · exact fun h => Or.inr h
        have hlen : (e :: f :: es).length = (f :: es).length + 1 := rfl
        rw [hlen, popTimes_succ, hp]
        simp only [i1, i2, hs]
        trivial

/-- The element `POP` returns is the text before the first `|` of `data`. -/
theorem POP_fst (st : State) : (POP st).1 = textBefore '|' st.data := by
  by_cases hm : '|' ∈ st.data
  · have hs := text_split '|' st.data hm
    by_cases ha : textBefore '|' st.data = []
    · rw [ha, List.nil_append] at hs
      rw [ha]
      by_cases hb : textAfter '|' st.data = []
      · rw [hb] at hs
        rw [POP_bar_only st hs]
      · rw [POP_bar_first st _ hs hb]
    · rw [POP_bar st _ _ hs (textBefore_not_mem '|' st.data) ha]
  · rw [POP_no_bar st hm, textBefore_of_not_mem _ _ hm]

/-- What `PEEK` returns: the text before the first `|` of `data`, except that a
data text starting with `|` is returned whole. -/
theorem PEEK_eq (st : State) :
    PEEK st = (if st.data.head? = some '|' then st.data else textBefore '|' st.data) := by
  by_cases hm : '|' ∈ st.data
  · have hs := text_split '|' st.data hm
    have hi := llSubStringIndex_split '|' _ (textAfter '|' st.data) (textBefore_not_mem '|' st.data)
    rw [← hs] at hi
    by_cases ha : textBefore '|' st.data = []
    · have hh : st.data.head? = some '|' := by
        rw [hs, ha]
        rfl
      have hi0 : llSubStringIndex st.data ['|'] = 0 := by
        rw [hi, ha]
        rfl
      unfold PEEK
      simp only [hi0]
      rw [if_pos (by decide), if_pos hh]
      exact llGetSubString_whole st.data
    · have hh : ¬ (st.data.head? = some '|') := by
        intro h
        obtain ⟨c, cs, hc⟩ := List.exists_cons_of_ne_nil ha
        rw [hs, hc] at h
        simp only [List.cons_append, List.head?_cons, Option.some.injEq] at h
        have := textBefore_not_mem '|' st.data
        rw [hc, h] at this
        simp at this
      have e1 : ((textBefore '|' st.data).length : Int) ≠ -1 := by omega
      unfold PEEK
      simp only [hi]
      rw [if_pos e1, if_neg hh]
      have hg := llGetSubString_head (textBefore '|' st.data) ('|' :: textAfter '|' st.data) ha
      rw [← hs] at hg
      exact hg
  · have hh : ¬ (st.data.head? = some '|') := by
      intro h
      cases hc : st.data with
      | nil => rw [hc] at h; simp at h
      | cons c cs =>
        rw [hc] at h hm
        simp only [List.head?_cons, Option.some.injEq] at h
        simp [h] at hm
    unfold PEEK
    simp only [llSubStringIndex_not_mem _ _ hm]
    rw [if_neg (by decide), if_neg hh, textBefore_of_not_mem _ _ hm]

/-! ## Properties of the specification -/

/-- C1, evaluated where it fails: the data text of the two-element stack of two
empty strings is `|`; two calls of `POP` return the two empty strings but leave
`|` in `data`, not the empty text, because `llGetSubString(data, 1, -1)` on a
text of one character is an exclusion range. -/
theorem C1_pop_two_empty_elements :
    joinWith '|' [[], []] = ['|'] ∧
    (popTimes 2 { GLOBAL_DATA with data := joinWith '|' [[], []] }).1 = [[], []] ∧
    (popTimes 2 { GLOBAL_DATA with data := joinWith '|' [[], []] }).2.data = ['|'] := by
  decide

/-- C2: for every state and every string `x` without `|`, `PUSH(x)` followed by
`POP` returns `x` and restores the state, in particular `data`, to what it was
before the push. -/
theorem C2_push_pop (st : State) (x : List Char) (hx : '|' ∉ x) :
    (POP (PUSH st x)).1 = x ∧ (POP (PUSH st x)).2.data = st.data ∧ (POP (PUSH st x)).2 = st := by
  have key : POP (PUSH st x) = (x, st) := by
    unfold PUSH
    by_cases hd : st.data = []
    · rw [if_pos hd, POP_no_bar _ hx]
      cases st
      simp_all
    · rw [if_neg hd]
      by_cases hxe : x = []
      · rw [POP_bar_first _ st.data (by simp [hxe]) hd]
        simp [hxe]
      · rw [POP_bar _ x st.data (by simp) hx hxe]
  rw [key]
  exact ⟨rfl, rfl, rfl⟩

/-- C2 at `x = "a"` on the data text `b|c`. -/
theorem C2_push_pop_witness :
    (POP (PUSH { GLOBAL_DATA with data := ['b', '|', 'c'] } ['a'])).1 = ['a'] ∧
    (POP (PUSH { GLOBAL_DATA with data := ['b', '|', 'c'] } ['a'])).2.data = ['b', '|', 'c'] ∧
    (POP (PUSH { GLOBAL_DATA with data := ['b', '|', 'c'] } ['a'])).2
      = { GLOBAL_DATA with data := ['b', '|', 'c'] } :=
  C2_push_pop { GLOBAL_DATA with data := ['b', '|', 'c'] } ['a'] (by decide)

/-! ## Facts about `GET_CONTROL_GLOBAL` -/

theorem GET_CONTROL_GLOBAL_parts (st : State) (msg : List Char) :
    GET_CONTROL_GLOBAL st msg = plusSplit (barSplit st msg) := rfl

theorem barSplit_no_bar (st : State) (msg : List Char) (h : '|' ∉ msg) :
    barSplit st msg = { st with n := msg, data := [] } := by
  unfold barSplit
  simp only [llSubStringIndex_not_mem _ _ h]
  rw [if_neg (by decide)]

theorem barSplit_bar (st : State) (a b : List Char) (ha : '|' ∉ a) :
    barSplit st (a ++ '|' :: b) =
      { n := if a = [] then ['0'] else a,
        seq := if a = [] then st.seq else a,
        data := if b = [] then st.data else b,
        rest := st.rest, next := st.next } := by
  have e1 : ((a.length : Int) ≠ -1) := by omega
  have e2 : (((a ++ '|' :: b).length : Nat) : Int) = (a.length : Int) + (b.length : Int) + 1 := by
    simp only [List.length_append, List.length_cons, Nat.cast_add, Nat.cast_one]
    omega
  unfold barSplit
  simp only [llSubStringIndex_split _ a b ha, llStringLength, e2, e1, ne_eq, not_false_eq_true,
    if_true]
  by_cases hae : a = []
  · subst hae
    by_cases hbe : b = []
    · subst hbe
      simp
    · have hbl : 0 < b.length := List.length_pos.mpr hbe
      have h := llGetSubString_after '|' [] b hbe
      simp only [List.nil_append, List.length_nil, Nat.cast_zero] at h
      have e3 : (0 : Int) + 1 < 0 + (b.length : Int) + 1 := by omega
      simp only [List.length_nil, Nat.cast_zero, e3, if_true, h, hbe, if_false, List.nil_append,
        not_true_eq_false]
  · have hal : 0 < a.length := List.length_pos.mpr hae
    have e4 : ¬ ((a.length : Int) = 0) := by omega
    simp only [e4, not_false_eq_true, if_true, llGetSubString_head a _ hae, hae, if_false]
    by_cases hbe : b = []
    · subst hbe
      simp
    · have hbl : 0 < b.length := List.length_pos.mpr hbe
      have e3 : (a.length : Int) + 1 < (a.length : Int) + (b.length : Int) + 1 := by omega
      simp only [e3, if_true, llGetSubString_after _ a b hbe, hbe, if_false]

theorem plusSplit_no_plus (st1 : State) (h : '+' ∉ st1.n) :
    plusSplit st1 =
      { st1 with rest := [], next := if st1.n = [] then 0 else castInteger st1.n } := by
  unfold plusSplit
  simp only [llSubStringIndex_not_mem _ _ h, ne_eq, not_true_eq_false, if_false]
  by_cases hn : st1.n = []
  · simp [hn]
  · simp [hn]

theorem plusSplit_plus (st1 : State) (p q : List Char) (hn : st1.n = p ++ '+' :: q)
    (hp : '+' ∉ p) (hpe : p ≠ []) (hqe : q ≠ []) :
    plusSplit st1 = { st1 with rest := q, n := p, next := castInteger p } := by
  have e1 : ((p.length : Int) ≠ -1) := by omega
  unfold plusSplit
  simp only [hn, llSubStringIndex_split _ p q hp, e1, ne_eq, not_false_eq_true, if_true,
    llGetSubString_head p _ hpe, llGetSubString_after _ p q hqe, hpe]

/-- What `plusSplit` computes from a state whose `n` is the control text `ctl`
(or is empty where `ctl` is the literal `0`), when the first `+` of `ctl` is
neither its first nor its last character. -/
theorem plusSplit_spec (st1 : State) (ctl : List Char)
    (hrel : st1.n = ctl ∨ (st1.n = [] ∧ ctl = ['0']))
    (h : '+' ∈ ctl → textBefore '+' ctl ≠ [] ∧ textAfter '+' ctl ≠ []) :
    (plusSplit st1).data = st1.data ∧
    (plusSplit st1).rest = textAfter '+' ctl ∧
    (plusSplit st1).next =
      (if textBefore '+' ctl = [] then 0 else castInteger (textBefore '+' ctl)) := by
  rcases hrel with hn | ⟨hn, hc⟩
  · by_cases hm : '+' ∈ ctl
    · obtain ⟨hb, ha⟩ := h hm
      have hs : st1.n = textBefore '+' ctl ++ '+' :: textAfter '+' ctl := by
        rw [hn]
        exact text_split '+' ctl hm
      rw [plusSplit_plus st1 _ _ hs (textBefore_not_mem '+' ctl) hb ha]
      simp [hb]
    · have hm2 : '+' ∉ st1.n := by rw [hn]; exact hm
      rw [plusSplit_no_plus st1 hm2, textAfter_of_not_mem _ _ hm, textBefore_of_not_mem _ _ hm, hn]
      exact ⟨rfl, rfl, rfl⟩
  · have hm2 : '+' ∉ st1.n := by rw [hn]; simp
    have t1 : textAfter '+' ['0'] = [] := by decide
    have t2 : (if textBefore '+' ['0'] = [] then (0 : Int)
        else castInteger (textBefore '+' ['0'])) = 0 := by decide
    rw [plusSplit_no_plus st1 hm2, hc, hn, t1, t2]
    exact ⟨rfl, rfl, rfl⟩

/-- The first half of the decode from fresh variables, in the words of the
specification. -/
theorem barSplit_spec (msg : List Char) :
    (barSplit GLOBAL_DATA msg).data = textAfter '|' msg ∧
    ((barSplit GLOBAL_DATA msg).n = controlText msg ∨
      ((barSplit GLOBAL_DATA msg).n = [] ∧ controlText msg = ['0'])) := by
  by_cases hm : '|' ∈ msg
  · have hs := text_split '|' msg hm
    have hb := barSplit_bar GLOBAL_DATA _ (textAfter '|' msg) (textBefore_not_mem '|' msg)
    rw [← hs] at hb
    rw [hb]
    constructor
    · by_cases ha : textAfter '|' msg = []
      · simp [ha, GLOBAL_DATA]
      · simp [ha]
    · left
      rfl
  · rw [barSplit_no_bar _ _ hm, textAfter_of_not_mem _ _ hm]
    refine ⟨rfl, ?_⟩
    unfold controlText
    rw [textBefore_of_not_mem _ _ hm]
    by_cases he : msg = []
    · right
      simp [he]
    · left
      simp [he]

/-- C3, as amended: for every message whose control text has its first `+`
neither as first nor as last character (or has no `+`), the decode from fresh
variables yields data = the text after the first `|`, rest = the control text
after its first `+`, and next = the integer cast of the control text before its
first `+`, with next = 0 when that head text is empty. -/
theorem C3_decode (msg : List Char)
    (h : '+' ∈ controlText msg →
      textBefore '+' (controlText msg) ≠ [] ∧ textAfter '+' (controlText msg) ≠ []) :
    (GET_CONTROL msg).data = textAfter '|' msg ∧
    (GET_CONTROL msg).rest = textAfter '+' (controlText msg) ∧
    (GET_CONTROL msg).next =
      (if textBefore '+' (controlText msg) = [] then 0
       else castInteger (textBefore '+' (controlText msg))) := by
  obtain ⟨hd, hn⟩ := barSplit_spec msg
  obtain ⟨h1, h2, h3⟩ := plusSplit_spec (barSplit GLOBAL_DATA msg) (controlText msg) hn h
  unfold GET_CONTROL
  rw [GET_CONTROL_GLOBAL_parts]
  exact ⟨h1.trans hd, h2, h3⟩

/-- C3 as amended, at the messages `5|` and `7`: next = 5 resp. 7, rest and data
empty. -/
theorem C3_decode_witness :
    (('+' ∈ controlText ['5', '|'] →
      textBefore '+' (controlText ['5', '|']) ≠ [] ∧ textAfter '+' (controlText ['5', '|']) ≠ []) ∧
      (GET_CONTROL ['5', '|']).data = [] ∧ (GET_CONTROL ['5', '|']).rest = [] ∧
      (GET_CONTROL ['5', '|']).next = 5) ∧
    (('+' ∈ controlText ['7'] →
      textBefore '+' (controlText ['7']) ≠ [] ∧ textAfter '+' (controlText ['7']) ≠ []) ∧
      (GET_CONTROL ['7']).data = [] ∧ (GET_CONTROL ['7']).rest = [] ∧
      (GET_CONTROL ['7']).next = 5 + 2) :=
  ⟨⟨by decide, C3_decode ['5', '|'] (by decide)⟩, ⟨by decide, C3_decode ['7'] (by decide)⟩⟩

/-- C3 as stated fails at the message `5+|x`: the control text `5+` ends with
its first `+`, the text after it is empty, but `rest` is the whole `5+`. -/
theorem C3_counterexample :
    ¬ ((GET_CONTROL ['5', '+', '|', 'x']).data = textAfter '|' ['5', '+', '|', 'x'] ∧
      (GET_CONTROL ['5', '+', '|', 'x']).rest
        = textAfter '+' (controlText ['5', '+', '|', 'x']) ∧
      (GET_CONTROL ['5', '+', '|', 'x']).next =
        (if textBefore '+' (controlText ['5', '+', '|', 'x']) = [] then 0
         else castInteger (textBefore '+' (controlText ['5', '+', '|', 'x'])))) := by
  decide

/-- C4: `NEXT_STATE` sends nothing when `next == 0`, and otherwise exactly one
message, to the link target, on slot `next`, with the text `rest + "|" + data`
and the key passed through; after the decode of `0|a|b` nothing is sent while
`data` is still `a|b`. -/
theorem C4_next_state (LinkType : Int) (xyzzy : List Char) (st : State) :
    NEXT_STATE LinkType xyzzy st =
      (if st.next = 0 then []
       else [{ link := LinkType, num := st.next, str := st.rest ++ ['|'] ++ st.data,
               id := xyzzy }]) ∧
    (GET_CONTROL ['0', '|', 'a', '|', 'b']).next = 0 ∧
    NEXT_STATE LinkType xyzzy (GET_CONTROL ['0', '|', 'a', '|', 'b']) = [] ∧
    (GET_CONTROL ['0', '|', 'a', '|', 'b']).data = ['a', '|', 'b'] := by
  have hn : (GET_CONTROL ['0', '|', 'a', '|', 'b']).next = 0 := by decide
  refine ⟨?_, hn, ?_, by decide⟩
  · unfold NEXT_STATE
    by_cases h : st.next = 0
    · simp [h]
    · simp [h]
  · unfold NEXT_STATE
    rw [if_neg (by simp [hn])]

/-! ## Facts about `POP_CNTRL` -/

theorem POP_CNTRL_empty (st : State) (h : st.rest = []) :
    POP_CNTRL st = { st with seq := [], next := 0 } := by
  unfold POP_CNTRL
  simp [h]

theorem POP_CNTRL_last (st : State) (h : '+' ∉ st.rest) (hne : st.rest ≠ []) :
    POP_CNTRL st = { st with seq := st.rest, next := castInteger st.rest, rest := [] } := by
  unfold POP_CNTRL
  simp only [llSubStringIndex_not_mem _ _ h, ne_eq, hne, not_false_eq_true, if_true,
    not_true_eq_false, if_false]

theorem POP_CNTRL_plus (st : State) (p q : List Char) (h : st.rest = p ++ '+' :: q)
    (hp : '+' ∉ p) (hpe : p ≠ []) (hqe : q ≠ []) :
    POP_CNTRL st = { st with seq := p ++ '+' :: q, next := castInteger p, rest := q } := by
  have e1 : ((p.length : Int) ≠ -1) := by omega
  unfold POP_CNTRL
  simp only [h, llSubStringIndex_split _ p q hp, e1, ne_eq, not_false_eq_true, if_true,
    llGetSubString_head p _ hpe, llGetSubString_after _ p q hqe, List.append_eq_nil,
    and_false, reduceCtorEq]

theorem joinWith_ne_nil (sep : Char) (ts : List (List Char)) (hne : ts ≠ [])
    (h : ∀ t ∈ ts, t ≠ []) : joinWith sep ts ≠ [] := by
  match ts, hne, h with
  | [e], _, h => exact h e (List.mem_singleton.mpr rfl)
  | e :: f :: es, _, _ => simp [joinWith]

/-- One `POP_CNTRL` on the joined decimal texts of `x :: xs`. -/
theorem POP_CNTRL_join (st : State) (x : Int) (xs : List Int)
    (hx : -2147483648 ≤ x ∧ x < 2147483648)
    (hr : st.rest = joinWith '+' ((x :: xs).map castString)) :
    (POP_CNTRL st).next = x ∧ (POP_CNTRL st).rest = joinWith '+' (xs.map castString) := by
  cases xs with
  | nil =>
    have hr2 : st.rest = castString x := by simpa [joinWith] using hr
    rw [POP_CNTRL_last st (by rw [hr2]; exact plus_not_mem_castString x)
      (by rw [hr2]; exact castString_ne_nil x), hr2]
    exact ⟨castInteger_castString x hx.1 hx.2, rfl⟩
  | cons y ys =>
    have hr2 : st.rest = castString x ++ '+' :: joinWith '+' ((y :: ys).map castString) := by
      simpa [joinWith] using hr
    have hq : joinWith '+' ((y :: ys).map castString) ≠ [] := by
      apply joinWith_ne_nil
      · simp
      · intro t ht
        obtain ⟨z, -, rfl⟩ := List.mem_map.mp ht
        exact castString_ne_nil z
    rw [POP_CNTRL_plus st _ _ hr2 (plus_not_mem_castString x) (castString_ne_nil x) hq]
    exact ⟨castInteger_castString x hx.1 hx.2, rfl⟩

/-- C5: when `rest` holds the decimal texts of the 32-bit integers of `l` joined
by `+`, the `k`-th call of `POP_CNTRL` (for 1 ≤ k ≤ length of `l`) sets `next` to
the `k`-th integer of `l`, and the call after the last one sets `next` to 0 and
leaves `rest` empty.  (That the integers are non-zero is not needed.) -/
theorem C5_pop_cntrl_sequence (l : List Int) (st : State)
    (hl : ∀ x ∈ l, -2147483648 ≤ x ∧ x < 2147483648)
    (hr : st.rest = joinWith '+' (l.map castString)) :
    (∀ k, k < l.length → l[k]? = some (popCntrlTimes (k + 1) st).next) ∧
    (popCntrlTimes (l.length + 1) st).next = 0 ∧
    (popCntrlTimes (l.length + 1) st).rest = [] := by
  induction l generalizing st with
  | nil =>
    have hr2 : st.rest = [] := by simpa [joinWith] using hr
    refine ⟨fun k hk => absurd hk (by simp), ?_, ?_⟩
    · simp [popCntrlTimes, POP_CNTRL_empty st hr2]
    · simp [popCntrlTimes, POP_CNTRL_empty st hr2, hr2]
  | cons x xs ih =>
    obtain ⟨h1, h2⟩ := POP_CNTRL_join st x xs (hl x (List.mem_cons_self x xs)) hr
    obtain ⟨i1, i2, i3⟩ := ih (POP_CNTRL st) (fun z hz => hl z (List.mem_cons_of_mem x hz)) h2
    refine ⟨?_, ?_, ?_⟩
    · intro k hk
      cases k with
      | zero => simp [popCntrlTimes, h1]
      | succ j =>
        have hj : j < xs.length := by simpa using hk
        simpa [popCntrlTimes] using i1 j hj
    · simpa [popCntrlTimes] using i2
    · simpa [popCntrlTimes] using i3

/-- C5 at the control sequence 10, -12, 11. -/
theorem C5_pop_cntrl_sequence_witness :
    (∀ x ∈ [(10 : Int), -12, 11], -2147483648 ≤ x ∧ x < 2147483648) ∧
    ({ GLOBAL_DATA with rest := ['1', '0', '+', '-', '1', '2', '+', '1', '1'] } : State).rest
      = joinWith '+' ([(10 : Int), -12, 11].map castString) ∧
    ((∀ k, k < [(10 : Int), -12, 11].length → [(10 : Int), -12, 11][k]? =
        some (popCntrlTimes (k + 1)
          { GLOBAL_DATA with rest := ['1', '0', '+', '-', '1', '2', '+', '1', '1'] }).next) ∧
      (popCntrlTimes ([(10 : Int), -12, 11].length + 1)
          { GLOBAL_DATA with rest := ['1', '0', '+', '-', '1', '2', '+', '1', '1'] }).next = 0 ∧
      (popCntrlTimes ([(10 : Int), -12, 11].length + 1)
          { GLOBAL_DATA with rest := ['1', '0', '+', '-', '1', '2', '+', '1', '1'] }).rest = []) :=
  ⟨by decide, by decide,
    C5_pop_cntrl_sequence [10, -12, 11]
      { GLOBAL_DATA with rest := ['1', '0', '+', '-', '1', '2', '+', '1', '1'] }
      (by decide) (by decide)⟩

/-- C6, evaluated where it fails: after the decode of `10+12|d` (next = 10,
rest = `12`, seq = `10+12`), `PUSH_CNTRL(5)` followed by `POP_CNTRL()` yields
next = 5, but rest = `10+12`, the old `seq`, not the old rest `12`. -/
theorem C6_push_pop_cntrl_after_decode :
    (GET_CONTROL ("10+12|d".toList)).next = 10 ∧
    (GET_CONTROL ("10+12|d".toList)).rest = "12".toList ∧
    (GET_CONTROL ("10+12|d".toList)).seq = "10+12".toList ∧
    (POP_CNTRL (PUSH_CNTRL (GET_CONTROL ("10+12|d".toList)) 5)).next = 5 ∧
    (POP_CNTRL (PUSH_CNTRL (GET_CONTROL ("10+12|d".toList)) 5)).rest = "10+12".toList := by
  decide

/-- C7, evaluated where it fails: `PUSH_CNTRL(x)` sets rest to the text of `x`
followed, when `seq` is not empty, by `+` and the old `seq` (not the old rest);
after the decode of `10+12|d`, `PUSH_CNTRL(5)` gives rest = `5+10+12`, where the
text of 5, `+` and the old rest is `5+12`. -/
theorem C7_push_cntrl_uses_seq (st : State) (x : Int) :
    (PUSH_CNTRL st x).rest =
      (if st.seq = [] then castString x ++ st.rest else castString x ++ ['+'] ++ st.seq) ∧
    (PUSH_CNTRL (GET_CONTROL ("10+12|d".toList)) 5).rest = "5+10+12".toList ∧
    castString 5 ++ ['+'] ++ (GET_CONTROL ("10+12|d".toList)).rest = "5+12".toList := by
  refine ⟨?_, by decide, by decide⟩
  unfold PUSH_CNTRL
  by_cases h : st.seq = []
  · simp [h]
  · simp [h]

/-- C8: `APPEND_CNTRL(x)` sets rest to old rest, `+` and the text of `x` when the
old rest is not empty and to the text of `x` otherwise, sets seq in the same way
from the old seq, and leaves next and data unchanged; the decode of
`10+12+11|data 1||data 3`, then `APPEND_CNTRL(20)`, then `NEXT_STATE` sends
`12+11+20|data 1||data 3` to slot 10. -/
theorem C8_append_cntrl (st : State) (x : Int) (LinkType : Int) (xyzzy : List Char) :
    (APPEND_CNTRL st x).rest =
      (if st.rest = [] then castString x else st.rest ++ ['+'] ++ castString x) ∧
    (APPEND_CNTRL st x).seq =
      (if st.seq = [] then castString x else st.seq ++ ['+'] ++ castString x) ∧
    (APPEND_CNTRL st x).next = st.next ∧
    (APPEND_CNTRL st x).data = st.data ∧
    (GET_CONTROL ("10+12+11|data 1||data 3".toList)).next = 10 ∧
    (GET_CONTROL ("10+12+11|data 1||data 3".toList)).rest = "12+11".toList ∧
    (GET_CONTROL ("10+12+11|data 1||data 3".toList)).data = "data 1||data 3".toList ∧
    (APPEND_CNTRL (GET_CONTROL ("10+12+11|data 1||data 3".toList)) 20).rest
      = "12+11+20".toList ∧
    NEXT_STATE LinkType xyzzy (APPEND_CNTRL (GET_CONTROL ("10+12+11|data 1||data 3".toList)) 20)
      = [{ link := LinkType, num := 10, str := "12+11+20|data 1||data 3".toList,
           id := xyzzy }] := by
  have hs : APPEND_CNTRL (GET_CONTROL ("10+12+11|data 1||data 3".toList)) 20 =
      { n := "10".toList, data := "data 1||data 3".toList, rest := "12+11+20".toList,
        seq := "10+12+11+20".toList, next := 10 } := by decide
  refine ⟨?_, ?_, ?_, ?_, by decide, by decide, by decide, by decide, ?_⟩
  · unfold APPEND_CNTRL
    by_cases h : st.rest = [] <;> by_cases h2 : st.seq = [] <;> simp [h, h2]
  · unfold APPEND_CNTRL
    by_cases h : st.rest = [] <;> by_cases h2 : st.seq = [] <;> simp [h, h2]
  · unfold APPEND_CNTRL
    by_cases h : st.rest = [] <;> by_cases h2 : st.seq = [] <;> simp [h, h2]
  · unfold APPEND_CNTRL
    by_cases h : st.rest = [] <;> by_cases h2 : st.seq = [] <;> simp [h, h2]
  · rw [hs]
    unfold NEXT_STATE
    rw [if_pos (by decide)]
    rfl

/-- C9, evaluated where it fails: on the data text `|a`, which starts with `|`,
`PEEK` returns the whole text `|a`, while the text before the first `|` and the
element that `POP` returns are both empty. -/
theorem C9_peek_leading_bar :
    PEEK { GLOBAL_DATA with data := ['|', 'a'] } = ['|', 'a'] ∧
    textBefore '|' ['|', 'a'] = [] ∧
    (POP { GLOBAL_DATA with data := ['|', 'a'] }).1 = [] := by
  decide

/-! ## Facts about `POP_DEFAULT` -/

theorem POP_DEFAULT_no_bar (st : State) (y : List Char) (h : '|' ∉ st.data)
    (hne : st.data ≠ []) : POP_DEFAULT st y = (st.data, { st with data := [] }) := by
  unfold POP_DEFAULT
  simp only [llSubStringIndex_not_mem _ _ h]
  rw [if_neg (by decide), if_neg (by decide), if_pos hne]

theorem POP_DEFAULT_bar (st : State) (y a b : List Char) (hd : st.data = a ++ '|' :: b)
    (ha : '|' ∉ a) (hne : a ≠ []) : POP_DEFAULT st y = (a, { st with data := b }) := by
  have hl : 0 < a.length := List.length_pos.mpr hne
  unfold POP_DEFAULT
  simp only [hd, llSubStringIndex_split _ a b ha, llGetSubString_head a _ hne, llStringLength]
  rw [if_pos (by omega)]
  by_cases hb : b = []
  · rw [if_neg (by simp [hb])]
    simp [hb]
  · have hbl : 0 < b.length := List.length_pos.mpr hb
    rw [if_pos (by simp; omega), llGetSubString_after _ a b hb]

theorem POP_DEFAULT_bar_first (st : State) (y b : List Char) (hd : st.data = '|' :: b) :
    POP_DEFAULT st y = (y, (POP st).2) := by
  have hi : llSubStringIndex ('|' :: b) ['|'] = 0 := by
    have := llSubStringIndex_split '|' [] b (by simp)
    simpa using this
  unfold POP_DEFAULT POP
  simp only [hd, hi]
  rw [if_neg (by decide), if_pos trivial, if_neg (by decide), if_pos trivial]

/-- C10, as amended: on every non-empty data text `POP_DEFAULT(x, d)` leaves the
same state, so the same data, as `POP`; it returns the element that `POP`
returns when the data text does not start with `|`, and the default `d` when it
does (an explicit empty first element). -/
theorem C10_pop_default (st : State) (d : List Char) (hne : st.data ≠ []) :
    (POP_DEFAULT st d).2 = (POP st).2 ∧
    (POP_DEFAULT st d).1 = (if st.data.head? = some '|' then d else (POP st).1) := by
  by_cases hm : '|' ∈ st.data
  · have hs := text_split '|' st.data hm
    by_cases ha : textBefore '|' st.data = []
    · rw [ha, List.nil_append] at hs
      have hh : st.data.head? = some '|' := by
        rw [hs]
        rfl
      rw [POP_DEFAULT_bar_first st d _ hs, if_pos hh]
      exact ⟨rfl, rfl⟩
    · have hh : ¬ (st.data.head? = some '|') := by
        intro h
        obtain ⟨c, cs, hc⟩ := List.exists_cons_of_ne_nil ha
        rw [hs, hc] at h
        simp only [List.cons_append, List.head?_cons, Option.some.injEq] at h
        have := textBefore_not_mem '|' st.data
        rw [hc, h] at this
        simp at this
      rw [POP_DEFAULT_bar st d _ _ hs (textBefore_not_mem '|' st.data) ha,
        POP_bar st _ _ hs (textBefore_not_mem '|' st.data) ha, if_neg hh]
      exact ⟨rfl, rfl⟩
  · have hh : ¬ (st.data.head? = some '|') := by
      intro h
      obtain ⟨c, cs, hc⟩ := List.exists_cons_of_ne_nil hne
      rw [hc] at h hm
      simp only [List.head?_cons, Option.some.injEq] at h
      simp [h] at hm
    rw [POP_DEFAULT_no_bar st d hm hne, POP_no_bar st hm, if_neg hh]
    exact ⟨rfl, rfl⟩

/-- C10 as amended, on the data texts `a|b` and `|a` with the default `x`. -/
theorem C10_pop_default_witness :
    (({ GLOBAL_DATA with data := ['a', '|', 'b'] } : State).data ≠ [] ∧
      (POP_DEFAULT { GLOBAL_DATA with data := ['a', '|', 'b'] } ['x']).2
        = (POP { GLOBAL_DATA with data := ['a', '|', 'b'] }).2 ∧
      (POP_DEFAULT { GLOBAL_DATA with data := ['a', '|', 'b'] } ['x']).1 = ['a']) ∧
    (({ GLOBAL_DATA with data := ['|', 'a'] } : State).data ≠ [] ∧
      (POP_DEFAULT { GLOBAL_DATA with data := ['|', 'a'] } ['x']).2
        = (POP { GLOBAL_DATA with data := ['|', 'a'] }).2 ∧
      (POP_DEFAULT { GLOBAL_DATA with data := ['|', 'a'] } ['x']).1 = ['x']) :=
  ⟨⟨by decide, C10_pop_default { GLOBAL_DATA with data := ['a', '|', 'b'] } ['x'] (by decide)⟩,
    ⟨by decide, C10_pop_default { GLOBAL_DATA with data := ['|', 'a'] } ['x'] (by decide)⟩⟩

/-- C10 as stated fails on the non-empty data text `|a` with the default `x`:
`POP_DEFAULT` returns the default `x`, `POP` returns the empty element. -/
theorem C10_counterexample :
    ¬ (({ GLOBAL_DATA with data := ['|', 'a'] } : State).data ≠ [] →
      (POP_DEFAULT { GLOBAL_DATA with data := ['|', 'a'] } ['x']).1
        = (POP { GLOBAL_DATA with data := ['|', 'a'] }).1 ∧
      (POP_DEFAULT { GLOBAL_DATA with data := ['|', 'a'] } ['x']).2.data
        = (POP { GLOBAL_DATA with data := ['|', 'a'] }).2.data) := by
  decide

/-- C11: on empty data `POP_DEFAULT(x, d)` returns the default `d` and leaves the
state, so the empty data, as it is; after the decode of `7` (no `|`) the data
is empty and `POP_DEFAULT` with the default `x` returns `x`. -/
theorem C11_pop_default_empty (st : State) (d : List Char) (h : st.data = []) :
    POP_DEFAULT st d = (d, st) ∧ (POP_DEFAULT st d).2.data = [] ∧
    (GET_CONTROL ['7']).next = 7 ∧ (GET_CONTROL ['7']).rest = [] ∧
    (GET_CONTROL ['7']).data = [] ∧
    (POP_DEFAULT (GET_CONTROL ['7']) ['x']).1 = ['x'] := by
  have key : POP_DEFAULT st d = (d, st) := by
    unfold POP_DEFAULT
    simp only [h, llSubStringIndex_not_mem '|' [] (by simp)]
    rw [if_neg (by decide), if_neg (by decide), if_neg (by simp)]
  refine ⟨key, ?_, by decide, by decide, by decide, by decide⟩
  rw [key]
  exact h

/-- C11 on the fresh state with the default `x`. -/
theorem C11_pop_default_empty_witness :
    GLOBAL_DATA.data = [] ∧
    (POP_DEFAULT GLOBAL_DATA ['x'] = (['x'], GLOBAL_DATA) ∧
      (POP_DEFAULT GLOBAL_DATA ['x']).2.data = [] ∧
      (GET_CONTROL ['7']).next = 7 ∧ (GET_CONTROL ['7']).rest = [] ∧
      (GET_CONTROL ['7']).data = [] ∧
      (POP_DEFAULT (GET_CONTROL ['7']) ['x']).1 = ['x']) :=
  ⟨rfl, C11_pop_default_empty GLOBAL_DATA ['x'] rfl⟩

/-! ## Facts about `POPlist` -/

/-- Without its last character, when other characters come before it. -/
theorem llGetSubString_drop_last (a : List Char) (c : Char) (ha : a ≠ []) :
    llGetSubString (a ++ [c]) 0 (-2) = a := by
  have hl : 0 < a.length := List.length_pos.mpr ha
  have e1 : ((a ++ [c]).length : Int) = (a.length : Int) + 1 := by simp
  have h2 : (0 : Int) ≤ -2 + ((a.length : Int) + 1) := by omega
  simp only [llGetSubString, e1, lt_self_iff_false, if_false, show ((-2 : Int) < 0) from by omega,
    if_true, h2]
  rw [subStringAux_append, subStringAux_all, subStringAux_none]
  · simp
  · intro j hj1 hj2
    simp only [decide_eq_false_iff_not]
    simp only [List.length_singleton, Nat.cast_one] at hj2
    omega
  · intro j hj1 hj2
    simp only [decide_eq_true_eq]
    omega

theorem POPlist_no_bar (st : State) (y : List Char) (h : '|' ∉ st.data) :
    POPlist st y = (llParseStringKeepNulls st.data [['+']] [], { st with data := [] }) := by
  unfold POPlist
  simp only [llSubStringIndex_not_mem _ _ h, llStringLength]
  by_cases hd : st.data = []
  · have e : llGetSubString ([] : List Char) 0 (-2) = [] := by decide
    simp [hd, e]
  · have hl : 0 < st.data.length := List.length_pos.mpr hd
    have e1 : ¬ ((-1 : Int) + 1 ≥ (st.data.length : Int)) := by omega
    have e5 : ¬ ((-1 : Int) > 0 ∧ (-1 : Int) + 1 < (st.data.length : Int)) := by omega
    rw [if_neg e1, if_neg e5, if_neg (by decide)]

theorem POPlist_bar_mid (st : State) (y a b : List Char) (hd : st.data = a ++ '|' :: b)
    (ha : '|' ∉ a) (hae : a ≠ []) (hbe : b ≠ []) :
    POPlist st y = (llParseStringKeepNulls a [y] [], { st with data := b }) := by
  have hal : 0 < a.length := List.length_pos.mpr hae
  have hbl : 0 < b.length := List.length_pos.mpr hbe
  have e2 : (((a ++ '|' :: b).length : Nat) : Int) = (a.length : Int) + (b.length : Int) + 1 := by
    simp only [List.length_append, List.length_cons, Nat.cast_add, Nat.cast_one]
    omega
  have e1 : ¬ ((a.length : Int) + 1 ≥ (a.length : Int) + (b.length : Int) + 1) := by omega
  unfold POPlist
  simp only [hd, llSubStringIndex_split _ a b ha, llStringLength, e2, e1, if_false]
  rw [if_pos ⟨by omega, by omega⟩, llGetSubString_head a _ hae, llGetSubString_after _ a b hbe]

theorem POPlist_bar_last (st : State) (y a : List Char) (hd : st.data = a ++ ['|'])
    (ha : '|' ∉ a) (hae : a ≠ []) :
    POPlist st y = (llParseStringKeepNulls a [['+']] [], { st with data := [] }) := by
  have hal : 0 < a.length := List.length_pos.mpr hae
  have e2 : (((a ++ ['|']).length : Nat) : Int) = (a.length : Int) + 1 := by simp
  have e1 : (a.length : Int) + 1 ≥ (a.length : Int) + 1 := le_refl _
  have e3 : ¬ ((a.length : Int) > 0 ∧ (a.length : Int) + 1 < (a.length : Int)) := by omega
  have e4 : ¬ ((a.length : Int) = 0) := by omega
  unfold POPlist
  simp only [hd, llSubStringIndex_split _ a [] ha, llStringLength, e2, e1, if_true,
    llGetSubString_drop_last a '|' hae, e3, e4, if_false]

theorem POPlist_bar_first (st : State) (y b : List Char) (hd : st.data = '|' :: b) :
    POPlist st y = ([], (POP st).2) := by
  have hi : llSubStringIndex ('|' :: b) ['|'] = 0 := by
    have := llSubStringIndex_split '|' [] b (by simp)
    simpa using this
  by_cases hbe : b = []
  · subst hbe
    have e : llGetSubString ['|'] 0 (-2) = ['|'] := by decide
    rw [POP_bar_only st hd]
    unfold POPlist
    simp only [hd, hi, llStringLength, e]
    simp [llGetSubString_one_char]
  · have hbl : 0 < b.length := List.length_pos.mpr hbe
    have e1 : ¬ ((0 : Int) + 1 ≥ ((('|' :: b).length : Nat) : Int)) := by
      simp only [List.length_cons, Nat.cast_add, Nat.cast_one]
      omega
    rw [POP_bar_first st b hd hbe]
    unfold POPlist
    simp only [hd, hi, llStringLength, e1, if_false, llGetSubString_drop_one _ b hbe]
    simp

/-- `POPlist` leaves the state that `POP` leaves, on every data text. -/
theorem POPlist_state (st : State) (y : List Char) : (POPlist st y).2 = (POP st).2 := by
  by_cases hm : '|' ∈ st.data
  · have hs := text_split '|' st.data hm
    have hb := textBefore_not_mem '|' st.data
    by_cases ha : textBefore '|' st.data = []
    · rw [ha, List.nil_append] at hs
      rw [POPlist_bar_first st y _ hs]
    · by_cases hbe : textAfter '|' st.data = []
      · rw [hbe] at hs
        rw [POPlist_bar_last st y _ hs hb ha, POP_bar st _ [] hs hb ha]
      · rw [POPlist_bar_mid st y _ _ hs hb ha hbe, POP_bar st _ _ hs hb ha]
  · rw [POPlist_no_bar st y hm, POP_no_bar st hm]

/-- C12, as amended: on every data text `POPlist(x, sep)` leaves the state, so
the remaining data, that `POP` leaves; when the data text starts with `|` it
returns the empty list; when the first `|` of the data text has text before it
and text after it, it returns the popped element split by `sep` with empty
pieces kept.  (Nothing is said of the last element of the stack.) -/
theorem C12_pop_list (st : State) (sep : List Char) :
    (POPlist st sep).2 = (POP st).2 ∧
    (st.data.head? = some '|' → (POPlist st sep).1 = []) ∧
    ('|' ∈ st.data → textBefore '|' st.data ≠ [] → textAfter '|' st.data ≠ [] →
      (POPlist st sep).1 = llParseStringKeepNulls (POP st).1 [sep] []) := by
  refine ⟨POPlist_state st sep, ?_, ?_⟩
  · intro hh
    cases hd : st.data with
    | nil => rw [hd] at hh; simp at hh
    | cons c cs =>
      rw [hd] at hh
      simp only [List.head?_cons, Option.some.injEq] at hh
      rw [hh] at hd
      rw [POPlist_bar_first st sep cs hd]
  · intro hm ha hbe
    have hs := text_split '|' st.data hm
    have hb := textBefore_not_mem '|' st.data
    rw [POPlist_bar_mid st sep _ _ hs hb ha hbe, POP_bar st _ _ hs hb ha]

/-- C12 as amended, on the data texts `a,b|c` and `|b` with the separator `,`. -/
theorem C12_pop_list_witness :
    ('|' ∈ ({ GLOBAL_DATA with data := "a,b|c".toList } : State).data ∧
      textBefore '|' ({ GLOBAL_DATA with data := "a,b|c".toList } : State).data ≠ [] ∧
      textAfter '|' ({ GLOBAL_DATA with data := "a,b|c".toList } : State).data ≠ [] ∧
      (POPlist { GLOBAL_DATA with data := "a,b|c".toList } [',']).1 = [['a'], ['b']] ∧
      (POPlist { GLOBAL_DATA with data := "a,b|c".toList } [',']).2.data = ['c']) ∧
    (({ GLOBAL_DATA with data := "|b".toList } : State).data.head? = some '|' ∧
      (POPlist { GLOBAL_DATA with data := "|b".toList } [',']).1 = [] ∧
      (POPlist { GLOBAL_DATA with data := "|b".toList } [',']).2.data = ['b']) :=
  ⟨⟨by decide, by decide, by decide,
      ((C12_pop_list { GLOBAL_DATA with data := "a,b|c".toList } [',']).2.2
        (by decide) (by decide) (by decide)).trans (by decide),
      (congrArg State.data (C12_pop_list { GLOBAL_DATA with data := "a,b|c".toList } [',']).1).trans
        (by decide)⟩,
    ⟨by decide,
      (C12_pop_list { GLOBAL_DATA with data := "|b".toList } [',']).2.1 (by decide),
      (congrArg State.data (C12_pop_list { GLOBAL_DATA with data := "|b".toList } [',']).1).trans
        (by decide)⟩⟩

/-- C12 as stated fails on the non-empty data text `|b` with the separator `,`:
`POP` returns the empty element, whose split keeps one empty piece, and
`POPlist` returns the empty list.  It also fails on the last element `a,b`,
which `POPlist` splits by `+`, not by the separator `,`. -/
theorem C12_counterexample :
    ¬ (({ GLOBAL_DATA with data := "|b".toList } : State).data ≠ [] →
      (POPlist { GLOBAL_DATA with data := "|b".toList } [',']).2.data
        = (POP { GLOBAL_DATA with data := "|b".toList }).2.data ∧
      (POPlist { GLOBAL_DATA with data := "|b".toList } [',']).1
        = llParseStringKeepNulls (POP { GLOBAL_DATA with data := "|b".toList }).1 [[',']] []) ∧
    ¬ (({ GLOBAL_DATA with data := "a,b".toList } : State).data ≠ [] →
      (POPlist { GLOBAL_DATA with data := "a,b".toList } [',']).2.data
        = (POP { GLOBAL_DATA with data := "a,b".toList }).2.data ∧
      (POPlist { GLOBAL_DATA with data := "a,b".toList } [',']).1
        = llParseStringKeepNulls (POP { GLOBAL_DATA with data := "a,b".toList }).1 [[',']] []) := by
  decide

/-- C13, as amended: on empty data `POPlist(x, sep)` returns the list holding one
empty string, the split of the empty text, and leaves the state, so the empty
data, as it is. -/
theorem C13_pop_list_empty (st : State) (sep : List Char) (h : st.data = []) :
    POPlist st sep = ([[]], st) ∧ (POPlist st sep).1.length = 1 ∧
    (POPlist st sep).2.data = [] := by
  have key : POPlist st sep = ([[]], st) := by
    rw [POPlist_no_bar st sep (by rw [h]; simp), h]
    have e : llParseStringKeepNulls [] [['+']] [] = [[]] := by decide
    rw [e]
    cases st
    simp_all
  rw [key]
  exact ⟨rfl, rfl, h⟩

/-- C13 as amended, on the fresh state with the separator `,`. -/
theorem C13_pop_list_empty_witness :
    GLOBAL_DATA.data = [] ∧
    (POPlist GLOBAL_DATA [','] = ([[]], GLOBAL_DATA) ∧
      (POPlist GLOBAL_DATA [',']).1.length = 1 ∧
      (POPlist GLOBAL_DATA [',']).2.data = []) :=
  ⟨rfl, C13_pop_list_empty GLOBAL_DATA [','] rfl⟩

/-- C13 as stated fails on the fresh state with the separator `,`: the list
returned is not the empty list. -/
theorem C13_counterexample :
    ¬ (GLOBAL_DATA.data = [] →
      (POPlist GLOBAL_DATA [',']).1 = [] ∧ (POPlist GLOBAL_DATA [',']).2.data = []) := by
  decide

/-! ## The invariant after the decode -/

theorem bar_not_mem_castString (x : Int) : '|' ∉ castString x := by
  unfold castString
  split
  · intro h
    rcases List.mem_cons.mp h with e | e
    · exact absurd e (by decide)
    · exact absurd (natDigits_isDigit _ _ _ e) (by decide)
  · intro e
    exact absurd (natDigits_isDigit _ _ _ e) (by decide)

theorem bar_not_mem_joinWith (ts : List (List Char)) (h : ∀ t ∈ ts, '|' ∉ t) :
    '|' ∉ joinWith '+' ts := by
  induction ts with
  | nil => simp [joinWith]
  | cons e t ih =>
    cases t with
    | nil => simpa [joinWith] using h e (List.mem_singleton.mpr rfl)
    | cons f es =>
      have h1 := h e (List.mem_cons_self e _)
      have h2 := ih (fun t ht => h t (List.mem_cons_of_mem e ht))
      simp only [joinWith, List.mem_append, List.mem_cons, not_or]
      exact ⟨h1, by decide, h2⟩

/-- With a `|` after a control part that is the joined decimal texts of the
32-bit integers `x :: xs`, the decode from fresh variables sets `next` to `x`
and `seq` to `next` joined by `+` to `rest`. -/
theorem GET_CONTROL_bar_invariant (x : Int) (xs : List Int) (data : List Char)
    (hl : ∀ y ∈ x :: xs, -2147483648 ≤ y ∧ y < 2147483648) :
    (GET_CONTROL (joinWith '+' ((x :: xs).map castString) ++ '|' :: data)).next = x ∧
    (GET_CONTROL (joinWith '+' ((x :: xs).map castString) ++ '|' :: data)).seq =
      joinedControl x (GET_CONTROL (joinWith '+' ((x :: xs).map castString) ++ '|' :: data)).rest := by
  have hx := hl x (List.mem_cons_self x xs)
  have hJ : '|' ∉ joinWith '+' ((x :: xs).map castString) := by
    apply bar_not_mem_joinWith
    intro t ht
    obtain ⟨z, -, rfl⟩ := List.mem_map.mp ht
    exact bar_not_mem_castString z
  have hJe : joinWith '+' ((x :: xs).map castString) ≠ [] := by
    apply joinWith_ne_nil
    · simp
    · intro t ht
      obtain ⟨z, -, rfl⟩ := List.mem_map.mp ht
      exact castString_ne_nil z
  unfold GET_CONTROL
  rw [GET_CONTROL_GLOBAL_parts, barSplit_bar GLOBAL_DATA _ data hJ]
  simp only [hJe, if_false]
  cases xs with
  | nil =>
    have e : joinWith '+' ([x].map castString) = castString x := by simp [joinWith]
    rw [e, plusSplit_no_plus _ (plus_not_mem_castString x)]
    simp [castString_ne_nil x, castInteger_castString x hx.1 hx.2, joinedControl]
  | cons y ys =>
    have e : joinWith '+' ((x :: y :: ys).map castString)
        = castString x ++ '+' :: joinWith '+' ((y :: ys).map castString) := by simp [joinWith]
    have hq : joinWith '+' ((y :: ys).map castString) ≠ [] := by
      apply joinWith_ne_nil
      · simp
      · intro t ht
        obtain ⟨z, -, rfl⟩ := List.mem_map.mp ht
        exact castString_ne_nil z
    rw [e, plusSplit_plus _ _ _ rfl (plus_not_mem_castString x) (castString_ne_nil x) hq]
    refine ⟨castInteger_castString x hx.1 hx.2, ?_⟩
    unfold joinedControl
    rw [if_neg hq]

/-- C14, evaluated where it fails: the message `10+12` has no `|`; the decode
sets next = 10 and rest = `12` but leaves `seq` empty, where next joined by `+`
to rest is `10+12`.  With a `|` after the same control part `seq` is `10+12`. -/
theorem C14_decode_without_bar :
    (GET_CONTROL ("10+12".toList)).next = 10 ∧
    (GET_CONTROL ("10+12".toList)).rest = "12".toList ∧
    (GET_CONTROL ("10+12".toList)).seq = [] ∧
    joinedControl 10 ("12".toList) = "10+12".toList ∧
    ¬ invariant (GET_CONTROL ("10+12".toList)) ∧
    (GET_CONTROL ("10+12|".toList)).seq = "10+12".toList ∧
    invariant (GET_CONTROL ("10+12|".toList)) := by
  decide

/-! ## The invariant under the control operations -/

/-- `APPEND_CNTRL` on a state whose `seq` is `next` joined by `+` to `rest`. -/
theorem APPEND_CNTRL_joined (st : State) (x : Int)
    (h : st.seq = joinedControl st.next st.rest) :
    (APPEND_CNTRL st x).next = st.next ∧
    (APPEND_CNTRL st x).rest ≠ [] ∧
    (APPEND_CNTRL st x).seq = castString st.next ++ '+' :: (APPEND_CNTRL st x).rest := by
  have hs : st.seq ≠ [] := by
    rw [h]
    unfold joinedControl
    split
    · exact castString_ne_nil _
    · simp
  unfold joinedControl at h
  unfold APPEND_CNTRL
  by_cases hr : st.rest = []
  · rw [if_pos hr] at h
    simp only [hr, hs, ne_eq, not_true_eq_false, not_false_eq_true, if_true, if_false,
      List.nil_append]
    rw [h]
    simp [castString_ne_nil x]
  · rw [if_neg hr] at h
    simp only [hr, hs, ne_eq, not_true_eq_false, not_false_eq_true, if_true, if_false]
    rw [h]
    simp

theorem joinedControl_of_ne_nil (next : Int) (rest : List Char) (h : rest ≠ []) :
    joinedControl next rest = castString next ++ '+' :: rest := by
  unfold joinedControl
  rw [if_neg h]

theorem POP_CNTRL_seq (st : State) : (POP_CNTRL st).seq = st.rest := by
  unfold POP_CNTRL
  simp only []
  split
  · split <;> rfl
  · rfl

theorem joinedControl_joinWith (x : Int) (xs : List Int) :
    joinedControl x (joinWith '+' (xs.map castString))
      = joinWith '+' ((x :: xs).map castString) := by
  cases xs with
  | nil => simp [joinedControl, joinWith]
  | cons y ys =>
    have hq : joinWith '+' ((y :: ys).map castString) ≠ [] := by
      apply joinWith_ne_nil
      · simp
      · intro t ht
        obtain ⟨z, -, rfl⟩ := List.mem_map.mp ht
        exact castString_ne_nil z
    rw [joinedControl_of_ne_nil _ _ hq]
    simp [joinWith]

theorem not_invariant_of_seq_eq_rest (st : State) (hn : st.next ≠ 0) (hr : st.rest ≠ [])
    (h : st.seq = st.rest) : ¬ invariant st := by
  intro hinv
  have e := hinv hn
  rw [joinedControl_of_ne_nil _ _ hr, h] at e
  have := congrArg List.length e
  simp only [List.length_append, List.length_cons] at this
  omega

/-- C15, as amended: of the control operations, `APPEND_CNTRL` keeps the invariant
for every state whose `seq` is `next` joined by `+` to `rest` and every integer,
and `POP_CNTRL` establishes it whenever `rest` holds the decimal texts of 32-bit
integers joined by `+`; `PUSH_CNTRL` leaves `seq` equal to `rest` and
`UPDATE_NEXT` leaves `rest` equal to `seq`, so after them the invariant does not
hold when `next` is not 0. -/
theorem C15_control_invariant :
    (∀ (st : State) (x : Int), st.seq = joinedControl st.next st.rest →
      invariant (APPEND_CNTRL st x)) ∧
    (∀ (st : State) (l : List Int), (∀ y ∈ l, -2147483648 ≤ y ∧ y < 2147483648) →
      st.rest = joinWith '+' (l.map castString) → invariant (POP_CNTRL st)) ∧
    (∀ (st : State) (x : Int), (PUSH_CNTRL st x).seq = (PUSH_CNTRL st x).rest ∧
      (PUSH_CNTRL st x).next = st.next ∧ (st.next ≠ 0 → ¬ invariant (PUSH_CNTRL st x))) ∧
    (∀ (st : State) (v : Int), (UPDATE_NEXT st v).rest = st.seq ∧
      (UPDATE_NEXT st v).seq = st.seq ∧ (UPDATE_NEXT st v).next = v ∧
      (v ≠ 0 → ¬ invariant (UPDATE_NEXT st v))) := by
  refine ⟨?_, ?_, ?_, ?_⟩
  · intro st x h
    obtain ⟨h1, h2, h3⟩ := APPEND_CNTRL_joined st x h
    intro _
    rw [h3, h1, joinedControl_of_ne_nil _ _ h2]
  · intro st l hl hr
    cases l with
    | nil =>
      have hr2 : st.rest = [] := by simpa [joinWith] using hr
      rw [POP_CNTRL_empty st hr2]
      intro hn
      exact absurd rfl hn
    | cons x xs =>
      obtain ⟨h1, h2⟩ := POP_CNTRL_join st x xs (hl x (List.mem_cons_self x xs)) hr
      intro _
      rw [POP_CNTRL_seq, h1, h2, joinedControl_joinWith, hr]
  · intro st x
    have hs : (PUSH_CNTRL st x).seq = (PUSH_CNTRL st x).rest := rfl
    have hn : (PUSH_CNTRL st x).next = st.next := by
      unfold PUSH_CNTRL
      split <;> rfl
    refine ⟨hs, hn, ?_⟩
    intro h0
    apply not_invariant_of_seq_eq_rest _ (by rw [hn]; exact h0) _ hs
    unfold PUSH_CNTRL
    simp [castString_ne_nil x]
  · intro st v
    refine ⟨rfl, rfl, rfl, ?_⟩
    intro hv hinv
    have e : st.seq = joinedControl v st.seq := hinv hv
    by_cases hs : st.seq = []
    · unfold joinedControl at e
      rw [if_pos hs, hs] at e
      exact castString_ne_nil v e.symm
    · rw [joinedControl_of_ne_nil _ _ hs] at e
      have := congrArg List.length e
      simp only [List.length_append, List.length_cons] at this
      omega

/-- C15 as amended, on the state decoded from `10+12|d`: `APPEND_CNTRL(20)` and
`POP_CNTRL()` give states that satisfy the invariant. -/
theorem C15_control_invariant_witness :
    ((GET_CONTROL ("10+12|d".toList)).seq
        = joinedControl (GET_CONTROL ("10+12|d".toList)).next
            (GET_CONTROL ("10+12|d".toList)).rest ∧
      invariant (APPEND_CNTRL (GET_CONTROL ("10+12|d".toList)) 20)) ∧
    ((∀ y ∈ [(12 : Int)], -2147483648 ≤ y ∧ y < 2147483648) ∧
      (GET_CONTROL ("10+12|d".toList)).rest = joinWith '+' ([(12 : Int)].map castString) ∧
      invariant (POP_CNTRL (GET_CONTROL ("10+12|d".toList)))) ∧
    ((GET_CONTROL ("10+12|d".toList)).next ≠ 0 ∧
      ¬ invariant (PUSH_CNTRL (GET_CONTROL ("10+12|d".toList)) 5)) ∧
    ((5 : Int) ≠ 0 ∧ ¬ invariant (UPDATE_NEXT (GET_CONTROL ("10+12|d".toList)) 5)) :=
  ⟨⟨by decide, C15_control_invariant.1 (GET_CONTROL ("10+12|d".toList)) 20 (by decide)⟩,
    ⟨by decide, by decide,
      C15_control_invariant.2.1 (GET_CONTROL ("10+12|d".toList)) [12] (by decide) (by decide)⟩,
    ⟨by decide, (C15_control_invariant.2.2.1 (GET_CONTROL ("10+12|d".toList)) 5).2.2 (by decide)⟩,
    ⟨by decide, (C15_control_invariant.2.2.2 (GET_CONTROL ("10+12|d".toList)) 5).2.2.2 (by decide)⟩⟩

/-- C15 as stated fails: on the state decoded from `10+12|d`, whose `seq` is
`next` joined by `+` to `rest`, neither `UPDATE_NEXT(5)` nor `PUSH_CNTRL(5)` gives
a state that satisfies the invariant; and on the state with next = 1,
rest = `07`, seq = `1+07`, `POP_CNTRL()` gives next = 7 with seq = `07`. -/
theorem C15_counterexample :
    ¬ ((GET_CONTROL ("10+12|d".toList)).seq
          = joinedControl (GET_CONTROL ("10+12|d".toList)).next
              (GET_CONTROL ("10+12|d".toList)).rest →
        (5 : Int) ≠ 0 → invariant (UPDATE_NEXT (GET_CONTROL ("10+12|d".toList)) 5)) ∧
    ¬ ((GET_CONTROL ("10+12|d".toList)).seq
          = joinedControl (GET_CONTROL ("10+12|d".toList)).next
              (GET_CONTROL ("10+12|d".toList)).rest →
        (5 : Int) ≠ 0 → invariant (PUSH_CNTRL (GET_CONTROL ("10+12|d".toList)) 5)) ∧
    ¬ (({ n := [], data := [], rest := "07".toList, seq := "1+07".toList, next := 1 } : State).seq
          = joinedControl 1 ("07".toList) →
        invariant (POP_CNTRL
          { n := [], data := [], rest := "07".toList, seq := "1+07".toList, next := 1 })) := by
  decide

/-! ## Facts about `LISTEN_CONTROL` and the split at `+` -/

theorem llSubStringIndex_of_mem (p : Char) (s : List Char) (h : p ∈ s) :
    llSubStringIndex s [p] = ((textBefore p s).length : Int) := by
  have hs := text_split p s h
  have hi := llSubStringIndex_split p _ (textAfter p s) (textBefore_not_mem p s)
  rw [← hs] at hi
  exact hi

theorem llSubStringIndex_ne_of_mem (p : Char) (s : List Char) (h : p ∈ s) :
    llSubStringIndex s [p] ≠ -1 := by
  rw [llSubStringIndex_of_mem p s h]
  omega

/-- The text that the header takes for the head of `s` at its first `p` is not
empty: it is the text before `p`, or all of `s` when `s` starts with `p`. -/
theorem llGetSubString_head_ne_nil (p : Char) (s : List Char) (h : p ∈ s) :
    llGetSubString s 0 (llSubStringIndex s [p] - 1) ≠ [] := by
  have hs := text_split p s h
  rw [llSubStringIndex_of_mem p s h]
  by_cases ha : textBefore p s = []
  · rw [ha]
    simp only [List.length_nil, Nat.cast_zero, zero_sub]
    rw [llGetSubString_whole]
    intro e
    rw [e] at h
    simp at h
  · have hg := llGetSubString_head (textBefore p s) (p :: textAfter p s) ha
    rw [← hs] at hg
    rw [hg]
    exact ha

theorem plusSplit_eq (st1 : State) :
    plusSplit st1 =
      (if (plusHead st1).n ≠ [] then { plusHead st1 with next := castInteger (plusHead st1).n }
       else { plusHead st1 with next := 0 }) := rfl

theorem LISTEN_CONTROL_parts (msg : List Char) :
    LISTEN_CONTROL msg = listenTail (plusHead (barSplit GLOBAL_DATA msg)) := rfl

theorem plusHead_mem (st1 : State) (h : '+' ∈ st1.n) :
    plusHead st1 =
      { st1 with rest := llGetSubString st1.n (llSubStringIndex st1.n ['+'] + 1) (-1),
                 n := llGetSubString st1.n 0 (llSubStringIndex st1.n ['+'] - 1) } := by
  unfold plusHead
  simp only []
  rw [if_pos (llSubStringIndex_ne_of_mem '+' st1.n h)]

theorem plusHead_not_mem (st1 : State) (h : '+' ∉ st1.n) :
    plusHead st1 = { st1 with rest := [] } := by
  unfold plusHead
  simp only [llSubStringIndex_not_mem _ _ h]
  rw [if_neg (by decide)]

theorem plusHead_rest_of_n_nil (st1 : State) (h : (plusHead st1).n = []) :
    (plusHead st1).rest = [] := by
  by_cases hm : '+' ∈ st1.n
  · rw [plusHead_mem st1 hm] at h
    exact absurd h (llGetSubString_head_ne_nil '+' st1.n hm)
  · rw [plusHead_not_mem st1 hm]

theorem listenTail_spec (st2 : State) (hrest : st2.n = [] → st2.rest = []) :
    (listenTail st2).1.data = st2.data ∧
    (listenTail st2).1.seq = st2.seq ∧
    (listenTail st2).2 = (if st2.n ≠ [] then castInteger st2.n else 0) ∧
    ('+' ∉ st2.rest →
      (listenTail st2).1.next = castInteger st2.rest ∧ (listenTail st2).1.rest = []) := by
  unfold listenTail
  by_cases hn : st2.n = []
  · have hr := hrest hn
    have e : castInteger [] = 0 := by decide
    simp [hn, hr, e]
  · by_cases hm : '+' ∈ st2.rest
    · have hi := llSubStringIndex_ne_of_mem '+' st2.rest hm
      simp [hn, hi, hm]
    · have hi := llSubStringIndex_not_mem '+' st2.rest hm
      simp [hn, hi]

/-- What `LISTEN_CONTROL` yields, next to the decode `GET_CONTROL` of the same
message. -/
theorem LISTEN_CONTROL_spec (msg : List Char) :
    (LISTEN_CONTROL msg).1.data = (GET_CONTROL msg).data ∧
    (LISTEN_CONTROL msg).1.seq = (GET_CONTROL msg).seq ∧
    (LISTEN_CONTROL msg).2 = (GET_CONTROL msg).next ∧
    ('+' ∉ (GET_CONTROL msg).rest →
      (LISTEN_CONTROL msg).1.next = castInteger (GET_CONTROL msg).rest ∧
      (LISTEN_CONTROL msg).1.rest = []) := by
  have hg : GET_CONTROL msg = plusSplit (barSplit GLOBAL_DATA msg) := rfl
  obtain ⟨h1, h2, h3, h4⟩ := listenTail_spec (plusHead (barSplit GLOBAL_DATA msg))
    (plusHead_rest_of_n_nil (barSplit GLOBAL_DATA msg))
  rw [hg, plusSplit_eq, LISTEN_CONTROL_parts]
  by_cases hn : (plusHead (barSplit GLOBAL_DATA msg)).n = []
  · rw [if_neg (by simp [hn])]
    rw [if_neg (by simp [hn])] at h3
    exact ⟨h1, h2, h3, h4⟩
  · rw [if_pos hn]
    rw [if_pos hn] at h3
    exact ⟨h1, h2, h3, h4⟩

theorem plusSplit_rest (st1 : State) : (plusSplit st1).rest = (plusHead st1).rest := by
  rw [plusSplit_eq]
  split <;> rfl

/-- The `rest` of the decode is the control text after its first `+`, unless
that `+` is the last character of the control text. -/
theorem GET_CONTROL_rest (msg : List Char)
    (h : '+' ∈ controlText msg → textAfter '+' (controlText msg) ≠ []) :
    (GET_CONTROL msg).rest = textAfter '+' (controlText msg) := by
  have hg : GET_CONTROL msg = plusSplit (barSplit GLOBAL_DATA msg) := rfl
  rw [hg, plusSplit_rest]
  rcases (barSplit_spec msg).2 with hn | ⟨hn, hc⟩
  · by_cases hm : '+' ∈ controlText msg
    · have hm2 : '+' ∈ (barSplit GLOBAL_DATA msg).n := by rw [hn]; exact hm
      have hs := text_split '+' (controlText msg) hm
      have hgs := llGetSubString_after '+' (textBefore '+' (controlText msg))
        (textAfter '+' (controlText msg)) (h hm)
      rw [← hs] at hgs
      rw [plusHead_mem _ hm2]
      show llGetSubString (barSplit GLOBAL_DATA msg).n
        (llSubStringIndex (barSplit GLOBAL_DATA msg).n ['+'] + 1) (-1) = _
      rw [hn, llSubStringIndex_of_mem '+' _ hm]
      exact hgs
    · have hm2 : '+' ∉ (barSplit GLOBAL_DATA msg).n := by rw [hn]; exact hm
      rw [plusHead_not_mem _ hm2, textAfter_of_not_mem _ _ hm]
  · have hm2 : '+' ∉ (barSplit GLOBAL_DATA msg).n := by rw [hn]; simp
    have t1 : textAfter '+' ['0'] = [] := by decide
    rw [plusHead_not_mem _ hm2, hc, t1]

/-- C16, as amended: for every message `LISTEN_CONTROL` yields the same `data`
and `seq` as the decode `GET_CONTROL`, and sets `chan` to the cast of the head
text that gives the `next` of the decode, so `chan` equals that `next`; its own
`next` comes from the second element: when the `rest` of the decode has no `+`,
`next` is the cast of that `rest` and `rest` is left empty; so when the control
text has no `+`, or its first `+` is not its last character and the text after
it has no further `+`, `next` is the cast of the control text after its first
`+` and `rest` is left empty.  For `10+12|x`: chan = 10, next = 12, rest
empty. -/
theorem C16_listen_control (msg : List Char) :
    (LISTEN_CONTROL msg).1.data = (GET_CONTROL msg).data ∧
    (LISTEN_CONTROL msg).1.seq = (GET_CONTROL msg).seq ∧
    (LISTEN_CONTROL msg).2 = (GET_CONTROL msg).next ∧
    ('+' ∉ (GET_CONTROL msg).rest →
      (LISTEN_CONTROL msg).1.next = castInteger (GET_CONTROL msg).rest ∧
      (LISTEN_CONTROL msg).1.rest = []) ∧
    (('+' ∈ controlText msg → textAfter '+' (controlText msg) ≠ []) →
      '+' ∉ textAfter '+' (controlText msg) →
      (LISTEN_CONTROL msg).1.next = castInteger (textAfter '+' (controlText msg)) ∧
      (LISTEN_CONTROL msg).1.rest = []) ∧
    (LISTEN_CONTROL ("10+12|x".toList)).2 = 10 ∧
    (LISTEN_CONTROL ("10+12|x".toList)).1.next = 12 ∧
    (LISTEN_CONTROL ("10+12|x".toList)).1.rest = [] := by
  obtain ⟨h1, h2, h3, h4⟩ := LISTEN_CONTROL_spec msg
  refine ⟨h1, h2, h3, h4, ?_, by decide, by decide, by decide⟩
  intro hlast hno
  have hr := GET_CONTROL_rest msg hlast
  rw [← hr]
  exact h4 (by rw [hr]; exact hno)

/-- C16 as amended, at the message `10+12|x`: the first `+` of the control text
`10+12` is not its last character and `12` has no further `+`. -/
theorem C16_listen_control_witness :
    ('+' ∈ controlText ("10+12|x".toList) →
      textAfter '+' (controlText ("10+12|x".toList)) ≠ []) ∧
    '+' ∉ textAfter '+' (controlText ("10+12|x".toList)) ∧
    '+' ∉ (GET_CONTROL ("10+12|x".toList)).rest ∧
    (LISTEN_CONTROL ("10+12|x".toList)).1.next
      = castInteger (textAfter '+' (controlText ("10+12|x".toList))) ∧
    (LISTEN_CONTROL ("10+12|x".toList)).1.next
      = castInteger (GET_CONTROL ("10+12|x".toList)).rest ∧
    (LISTEN_CONTROL ("10+12|x".toList)).1.rest = [] ∧
    (LISTEN_CONTROL ("10+12|x".toList)).2 = (GET_CONTROL ("10+12|x".toList)).next :=
  ⟨by decide, by decide, by decide,
    ((C16_listen_control ("10+12|x".toList)).2.2.2.2.1 (by decide) (by decide)).1,
    ((C16_listen_control ("10+12|x".toList)).2.2.2.1 (by decide)).1,
    ((C16_listen_control ("10+12|x".toList)).2.2.2.2.1 (by decide) (by decide)).2,
    (C16_listen_control ("10+12|x".toList)).2.2.1⟩

/-- C16 as stated fails at its own example `10+12|x`: the decode gives
next = 10 and rest = `12`, `LISTEN_CONTROL` gives next = 12 and rest empty, so
neither `next` nor `rest` is the same and `chan` = 10 is not `next`. -/
theorem C16_counterexample :
    ¬ ((LISTEN_CONTROL ("10+12|x".toList)).1.next = (GET_CONTROL ("10+12|x".toList)).next ∧
      (LISTEN_CONTROL ("10+12|x".toList)).1.rest = (GET_CONTROL ("10+12|x".toList)).rest ∧
      (LISTEN_CONTROL ("10+12|x".toList)).1.seq = (GET_CONTROL ("10+12|x".toList)).seq ∧
      (LISTEN_CONTROL ("10+12|x".toList)).1.data = (GET_CONTROL ("10+12|x".toList)).data ∧
      (LISTEN_CONTROL ("10+12|x".toList)).2 = (LISTEN_CONTROL ("10+12|x".toList)).1.next) := by
  decide

/-- C17, evaluated where it fails: on the state decoded from `10+12|d`, whose
`seq` is not empty, `SAFE_PUSH_CNTRL(5)` sets rest and seq to `5+12` and
`PUSH_CNTRL(5)` sets them to `5+10+12`. -/
theorem C17_safe_push_cntrl_differs :
    (GET_CONTROL ("10+12|d".toList)).seq ≠ [] ∧
    (SAFE_PUSH_CNTRL (GET_CONTROL ("10+12|d".toList)) 5).rest = "5+12".toList ∧
    (SAFE_PUSH_CNTRL (GET_CONTROL ("10+12|d".toList)) 5).seq = "5+12".toList ∧
    (PUSH_CNTRL (GET_CONTROL ("10+12|d".toList)) 5).rest = "5+10+12".toList ∧
    (PUSH_CNTRL (GET_CONTROL ("10+12|d".toList)) 5).seq = "5+10+12".toList ∧
    (SAFE_PUSH_CNTRL (GET_CONTROL ("10+12|d".toList)) 5).next
      = (PUSH_CNTRL (GET_CONTROL ("10+12|d".toList)) 5).next := by
  decide

/-! ## One hop: the message sent and its decode -/

theorem plusSplit_mem (st1 : State) (h : '+' ∈ st1.n) :
    plusSplit st1 =
      { st1 with rest := llGetSubString st1.n (llSubStringIndex st1.n ['+'] + 1) (-1),
                 n := llGetSubString st1.n 0 (llSubStringIndex st1.n ['+'] - 1),
                 next := castInteger (llGetSubString st1.n 0 (llSubStringIndex st1.n ['+'] - 1)) } := by
  rw [plusSplit_eq, plusHead_mem st1 h]
  rw [if_pos (llGetSubString_head_ne_nil '+' st1.n h)]

theorem POP_CNTRL_mem (st : State) (h : '+' ∈ st.rest) :
    POP_CNTRL st =
      { st with seq := st.rest,
                next := castInteger (llGetSubString st.rest 0 (llSubStringIndex st.rest ['+'] - 1)),
                rest := llGetSubString st.rest (llSubStringIndex st.rest ['+'] + 1) (-1) } := by
  have hne : st.rest ≠ [] := by
    intro e
    rw [e] at h
    simp at h
  unfold POP_CNTRL
  simp only [ne_eq, hne, not_false_eq_true, if_true, llSubStringIndex_ne_of_mem '+' st.rest h]

/-- C18: for every state whose `rest` has no `|`, the decode, from fresh
variables, of the text `rest + "|" + data` that `NEXT_STATE` sends yields the
same `next`, `rest` and `seq` as `POP_CNTRL()` on the sending state, and `data`
equal to the data of the sending state. -/
theorem C18_hop_consistency (st : State) (h : '|' ∉ st.rest) :
    (GET_CONTROL (st.rest ++ ['|'] ++ st.data)).next = (POP_CNTRL st).next ∧
    (GET_CONTROL (st.rest ++ ['|'] ++ st.data)).rest = (POP_CNTRL st).rest ∧
    (GET_CONTROL (st.rest ++ ['|'] ++ st.data)).seq = (POP_CNTRL st).seq ∧
    (GET_CONTROL (st.rest ++ ['|'] ++ st.data)).data = st.data := by
  have e : st.rest ++ ['|'] ++ st.data = st.rest ++ '|' :: st.data := by simp
  have hd : (if st.data = [] then GLOBAL_DATA.data else st.data) = st.data := by
    by_cases hde : st.data = []
    · rw [if_pos hde, hde]
      rfl
    · rw [if_neg hde]
  unfold GET_CONTROL
  rw [e, GET_CONTROL_GLOBAL_parts, barSplit_bar GLOBAL_DATA st.rest st.data h, hd]
  by_cases hr : st.rest = []
  · have e0 : castInteger ['0'] = 0 := by decide
    rw [POP_CNTRL_empty st hr, plusSplit_no_plus _ (by simp [hr])]
    simp [hr, e0, GLOBAL_DATA]
  · rw [if_neg hr, if_neg hr]
    by_cases hm : '+' ∈ st.rest
    · rw [plusSplit_mem _ hm, POP_CNTRL_mem st hm]
      exact ⟨rfl, rfl, rfl, rfl⟩
    · rw [plusSplit_no_plus _ hm, POP_CNTRL_last st hm hr]
      simp [hr]

/-- C18 on the state decoded from `10+12+11|data 1||data 3`. -/
theorem C18_hop_consistency_witness :
    '|' ∉ (GET_CONTROL ("10+12+11|data 1||data 3".toList)).rest ∧
    (GET_CONTROL ("12+11|data 1||data 3".toList)).next
      = (POP_CNTRL (GET_CONTROL ("10+12+11|data 1||data 3".toList))).next ∧
    (GET_CONTROL ("12+11|data 1||data 3".toList)).rest
      = (POP_CNTRL (GET_CONTROL ("10+12+11|data 1||data 3".toList))).rest ∧
    (GET_CONTROL ("12+11|data 1||data 3".toList)).seq
      = (POP_CNTRL (GET_CONTROL ("10+12+11|data 1||data 3".toList))).seq ∧
    (GET_CONTROL ("12+11|data 1||data 3".toList)).data
      = (GET_CONTROL ("10+12+11|data 1||data 3".toList)).data :=
  ⟨by decide, C18_hop_consistency (GET_CONTROL ("10+12+11|data 1||data 3".toList)) (by decide)⟩

/-- The data text gets shorter by a `POP`, unless it is empty or is `|`. -/
theorem POP_shorter (st : State) (hne : st.data ≠ []) (hb : st.data ≠ ['|']) :
    (POP st).2.data.length < st.data.length := by
  by_cases hm : '|' ∈ st.data
  · have hs := text_split '|' st.data hm
    have hl := congrArg List.length hs
    simp only [List.length_append, List.length_cons] at hl
    by_cases ha : textBefore '|' st.data = []
    · rw [ha, List.nil_append] at hs
      have hbe : textAfter '|' st.data ≠ [] := by
        intro e
        rw [e] at hs
        exact hb hs
      rw [POP_bar_first st _ hs hbe]
      show (textAfter '|' st.data).length < st.data.length
      omega
    · rw [POP_bar st _ _ hs (textBefore_not_mem '|' st.data) ha]
      show (textAfter '|' st.data).length < st.data.length
      omega
  · rw [POP_no_bar st hm]
    exact List.length_pos.mpr hne

/-- C19, evaluated where it fails: on the one-character data text `|`, `POP`
leaves `data` as `|`, not shorter, and any number of calls of `POP` leaves it
as `|`, so a loop that pops until `data` is empty does not end. -/
theorem C19_pop_bar_not_shorter (k : Nat) :
    (POP { GLOBAL_DATA with data := ['|'] }).2.data = ['|'] ∧
    (popTimes k { GLOBAL_DATA with data := ['|'] }).2.data = ['|'] := by
  refine ⟨by decide, ?_⟩
  induction k with
  | zero => rfl
  | succ j ih =>
    rw [popTimes_succ, POP_bar_only { GLOBAL_DATA with data := ['|'] } rfl]
    exact ih

/-- C20: for every state with `next` not 0 whose `seq` is the text of `next`
followed, when `rest` is not empty, by `+` and `rest`, and every integer `x`,
the state after `APPEND_CNTRL(x)` has the same `next`, and its `seq` is the text
of `next` followed by `+` and the new `rest`. -/
theorem C20_append_cntrl_invariant (st : State) (x : Int) (hn : st.next ≠ 0)
    (hinv : invariant st) :
    (APPEND_CNTRL st x).next = st.next ∧
    (APPEND_CNTRL st x).seq
      = castString (APPEND_CNTRL st x).next ++ ['+'] ++ (APPEND_CNTRL st x).rest ∧
    invariant (APPEND_CNTRL st x) := by
  obtain ⟨h1, h2, h3⟩ := APPEND_CNTRL_joined st x (hinv hn)
  refine ⟨h1, ?_, ?_⟩
  · rw [h3, h1]
    simp
  · intro _
    rw [h3, h1, joinedControl_of_ne_nil _ _ h2]

/-- C20 on the state decoded from `10+12|d` with `x` = 20. -/
theorem C20_append_cntrl_invariant_witness :
    (GET_CONTROL ("10+12|d".toList)).next ≠ 0 ∧
    invariant (GET_CONTROL ("10+12|d".toList)) ∧
    (APPEND_CNTRL (GET_CONTROL ("10+12|d".toList)) 20).next = 10 ∧
    (APPEND_CNTRL (GET_CONTROL ("10+12|d".toList)) 20).seq = "10+12+20".toList ∧
    (APPEND_CNTRL (GET_CONTROL ("10+12|d".toList)) 20).rest = "12+20".toList ∧
    invariant (APPEND_CNTRL (GET_CONTROL ("10+12|d".toList)) 20) :=
  ⟨by decide, by decide,
    (C20_append_cntrl_invariant (GET_CONTROL ("10+12|d".toList)) 20 (by decide) (by decide)).1,
    by decide, by decide,
    (C20_append_cntrl_invariant (GET_CONTROL ("10+12|d".toList)) 20 (by decide) (by decide)).2.2⟩

end ControlStack
